import Mathlib

/-!
# Verification of the nofx trader engine specification

Shallow embedding, in exact arithmetic, of the parts of the `nofx` trading
orchestrator that the specification claims talk about:

* the decision data model and the execution sequencer's priority sort
  (`mcp/client.go`, `sortDecisionsByPriority`),
* the decision validator (`decision` package, `validateDecision` /
  `validateDecisions`),
* the OKX exchange adapter's quantity rounding, margin gate and
  read-through caches (`trader/okx_trader.go`),
* the drawdown monitor (`mcp/client.go`, `checkPositionDrawdown`,
  `UpdatePeakPnL`, `ClearPeakPnLCache`),
* the balance auto-sync (`mcp/client.go`, `autoSyncBalanceIfNeeded`),
* the LLM response JSON repair pipeline and decision extraction
  (`decision` package, `removeInvisibleRunes`, `fixMissingQuotes`,
  `fixEmptyStringFields`, `fixThousandSeparators`, `extractDecisions`).

Go `float64` quantities are modelled as `ℚ`; Go strings are modelled as
`String` where only compared for equality, and as `List Char` (rune lists)
where the code manipulates their contents; Go byte-level operations
(`len`, slicing) are modelled through an explicit UTF-8 encoder.
Imperative loops are translated to explicit state-passing recursion.
-/

namespace Nofx

/-! ## Decision data model (`decision.Decision`) -/

/-- The AI trading decision record (`decision` package, `type Decision`).
Numeric fields are exact rationals in place of `float64`/`int`. -/
structure Decision where
  symbol : String
  action : String
  leverage : Int := 0
  positionSizeUSD : ℚ := 0
  stopLoss : ℚ := 0
  takeProfit : ℚ := 0
  newStopLoss : ℚ := 0
  newTakeProfit : ℚ := 0
  closePercentage : ℚ := 0
  confidence : Int := 0
  riskUSD : ℚ := 0
  reasoning : String := ""
deriving DecidableEq, Repr

/-! ## Execution sequencer priority sort (`mcp/client.go` 2334–2369) -/

/-- `getActionPriority` inside `sortDecisionsByPriority`. -/
def getActionPriority (action : String) : Nat :=
  if action = "close_long" ∨ action = "close_short" ∨ action = "partial_close" then 1
  else if action = "update_stop_loss" ∨ action = "update_take_profit" then 2
  else if action = "open_long" ∨ action = "open_short" then 3
  else if action = "hold" ∨ action = "wait" then 4
  else 999

/-- One execution of the inner loop of `sortDecisionsByPriority` for a fixed
outer index `i`: `cur` is the current value of `sorted[i]`, the argument list
holds `sorted[i+1..]`.  A swap `sorted[i], sorted[j] = sorted[j], sorted[i]`
stores `cur` at position `j` and continues scanning with the new `sorted[i]`.
Returns the final `sorted[i]` together with the final `sorted[i+1..]`. -/
def selectPass (cur : Decision) : List Decision → Decision × List Decision
  | [] => (cur, [])
  | d :: rest =>
    if getActionPriority cur.action > getActionPriority d.action then
      let p := selectPass d rest
      (p.1, cur :: p.2)
    else
      let p := selectPass cur rest
      (p.1, d :: p.2)

/-- The outer loop of `sortDecisionsByPriority`: iteration `i` runs the inner
pass on `sorted[i..]` and fixes `sorted[i]`.  The fuel argument (instantiated
with the list length) only makes the recursion structural; the inner pass
preserves length, so the fuel never runs out. -/
def sortLoopFuel : Nat → List Decision → List Decision
  | 0, l => l
  | Nat.succ n, l =>
    match l with
    | [] => []
    | d :: rest =>
      let p := selectPass d rest
      p.1 :: sortLoopFuel n p.2

/-- `sortDecisionsByPriority` (`mcp/client.go` 2334–2369): lists of length at
most one are returned unchanged, otherwise the copied list is sorted in place
by the double swap loop. -/
def sortDecisionsByPriority (decisions : List Decision) : List Decision :=
  if decisions.length ≤ 1 then decisions else sortLoopFuel decisions.length decisions

theorem selectPass_length (cur : Decision) (l : List Decision) :
    (selectPass cur l).2.length = l.length := by
  induction l generalizing cur with
  | nil => rfl
  | cons d rest ih =>
    by_cases h : getActionPriority cur.action > getActionPriority d.action <;>
      simp [selectPass, h, ih]

theorem selectPass_perm (cur : Decision) (l : List Decision) :
    List.Perm ((selectPass cur l).1 :: (selectPass cur l).2) (cur :: l) := by
  induction l generalizing cur with
  | nil => rfl
  | cons d rest ih =>
    by_cases h : getActionPriority cur.action > getActionPriority d.action
    · simp only [selectPass, if_pos h]
      exact (List.Perm.swap cur (selectPass d rest).1 (selectPass d rest).2).trans
        (List.Perm.cons cur (ih d))
    · simp only [selectPass, if_neg h]
      exact ((List.Perm.swap d (selectPass cur rest).1 (selectPass cur rest).2).trans
        (List.Perm.cons d (ih cur))).trans (List.Perm.swap cur d rest)

theorem selectPass_min (cur : Decision) (l : List Decision) :
    getActionPriority (selectPass cur l).1.action ≤ getActionPriority cur.action ∧
      ∀ x ∈ (selectPass cur l).2,
        getActionPriority (selectPass cur l).1.action ≤ getActionPriority x.action := by
  induction l generalizing cur with
  | nil => exact ⟨le_refl _, by simp [selectPass]⟩
  | cons d rest ih =>
    by_cases h : getActionPriority cur.action > getActionPriority d.action
    · simp only [selectPass, if_pos h]
      obtain ⟨h1, h2⟩ := ih d
      refine ⟨h1.trans (le_of_lt h), ?_⟩
      intro x hx
      rcases List.mem_cons.mp hx with hx | hx
      · exact hx ▸ (h1.trans (le_of_lt h))
      · exact h2 x hx
    · simp only [selectPass, if_neg h]
      obtain ⟨h1, h2⟩ := ih cur
      refine ⟨h1, ?_⟩
      intro x hx
      rcases List.mem_cons.mp hx with hx | hx
      · exact hx ▸ (h1.trans (not_lt.mp h))
      · exact h2 x hx

theorem sortLoopFuel_perm_sorted :
    ∀ (n : Nat) (l : List Decision), l.length ≤ n →
      List.Perm (sortLoopFuel n l) l ∧
        List.Sorted (fun a b : Decision =>
          getActionPriority a.action ≤ getActionPriority b.action) (sortLoopFuel n l) := by
  intro n
  induction n with
  | zero =>
    intro l hl
    have : l = [] := List.length_eq_zero.mp (Nat.le_zero.mp hl)
    subst this
    exact ⟨List.Perm.refl _, List.sorted_nil⟩
  | succ n ih =>
    intro l hl
    match l with
    | [] => exact ⟨List.Perm.refl _, List.sorted_nil⟩
    | d :: rest =>
      have hlen : (selectPass d rest).2.length ≤ n := by
        rw [selectPass_length]
        exact Nat.lt_succ_iff.mp (Nat.lt_of_lt_of_le (Nat.lt_succ_self _) hl)
      obtain ⟨hperm, hsorted⟩ := ih (selectPass d rest).2 hlen
      constructor
      · show List.Perm ((selectPass d rest).1 :: sortLoopFuel n (selectPass d rest).2) (d :: rest)
        exact (List.Perm.cons _ hperm).trans (selectPass_perm d rest)
      · show List.Sorted _ ((selectPass d rest).1 :: sortLoopFuel n (selectPass d rest).2)
        rw [List.sorted_cons]
        refine ⟨?_, hsorted⟩
        intro b hb
        exact (selectPass_min d rest).2 b (hperm.mem_iff.mp hb)

/-- Claim C2 (amended): `sortDecisionsByPriority` returns a permutation of its
input that is sorted by the priority ranks close-long/close-short/partial-close
(1) before update-stop-loss/update-take-profit (2) before open-long/open-short
(3) before hold/wait (4); it is however not a stable sort (see the
counterexample), so within a rank the LLM-provided order is not preserved. -/
theorem sortDecisionsByPriority_rank_ordered (decisions : List Decision) :
    List.Perm (sortDecisionsByPriority decisions) decisions ∧
      List.Sorted (fun a b : Decision =>
        getActionPriority a.action ≤ getActionPriority b.action)
        (sortDecisionsByPriority decisions) := by
  unfold sortDecisionsByPriority
  by_cases h : decisions.length ≤ 1
  · simp only [h, if_pos]
    refine ⟨List.Perm.refl _, ?_⟩
    match decisions, h with
    | [], _ => exact List.sorted_nil
    | [d], _ => exact List.sorted_singleton _
  · simp only [h, if_neg, if_false]
    exact sortLoopFuel_perm_sorted decisions.length decisions (le_refl _)

/-- Concrete input refuting stability: two `open_long` decisions A and C
interleaved with two `close_long` decisions. -/
def cexSortInput : List Decision :=
  [{ symbol := "AAAUSDT", action := "open_long" },
   { symbol := "BBBUSDT", action := "close_long" },
   { symbol := "CCCUSDT", action := "open_long" },
   { symbol := "DDDUSDT", action := "close_long" }]

/-- Claim C2 (counterexample): `sortDecisionsByPriority` is not stable.  On the
explicit list [open_long AAA, close_long BBB, open_long CCC, close_long DDD]
the two `open_long` decisions come out in the order CCC, AAA — the reverse of
their input order.  A stable sort preserves the subsequence of decisions of
each action (`filter` by that action commutes with it); here the `open_long`
subsequence is reversed, refuting "two decisions with the same action keep
their input order". -/
theorem sortDecisionsByPriority_not_stable :
    cexSortInput.map (fun d => (d.symbol, d.action)) =
        [("AAAUSDT", "open_long"), ("BBBUSDT", "close_long"),
         ("CCCUSDT", "open_long"), ("DDDUSDT", "close_long")] ∧
      (sortDecisionsByPriority cexSortInput).map Decision.symbol =
        ["BBBUSDT", "DDDUSDT", "CCCUSDT", "AAAUSDT"] ∧
      (sortDecisionsByPriority cexSortInput).filter (fun d => d.action = "open_long") ≠
        cexSortInput.filter (fun d => d.action = "open_long") := by
  refine ⟨by decide, by decide, by decide⟩

/-! ## Decision validator (`decision` package, `validateDecision` /
`validateDecisions`, V1.64) -/

/-- The nine members of the action vocabulary (`validActions` map in
`validateDecision`). -/
def validActions : List String :=
  ["open_long", "open_short", "close_long", "close_short",
   "update_stop_loss", "update_take_profit", "partial_close", "hold", "wait"]

/-- `validateDecision` (V1.64): validates one decision.  The Go function also
receives `accountEquity` and `currentPrice`, and since V1.64 uses neither; they
are kept in the signature for fidelity.  For open actions only the leverage
range is checked (the V1.64 comment in the source: only leverage validation is
kept, everything else is left to the AI and the exchange). -/
def validateDecision (d : Decision) (accountEquity : ℚ)
    (btcEthLeverage altcoinLeverage : Int) (currentPrice : ℚ) : Except String Unit :=
  if ¬ validActions.contains d.action then
    .error ("无效的action: " ++ d.action)
  else if (d.action = "open_long" ∨ d.action = "open_short") ∧
      (d.leverage ≤ 0 ∨
        d.leverage > (if d.symbol = "BTCUSDT" ∨ d.symbol = "ETHUSDT"
          then btcEthLeverage else altcoinLeverage)) then
    .error ("杠杆必须在1-上限之间: " ++ toString d.leverage)
  else if d.action = "update_stop_loss" ∧ d.newStopLoss ≤ 0 then
    .error "新止损价格必须大于0"
  else if d.action = "update_take_profit" ∧ d.newTakeProfit ≤ 0 then
    .error "新止盈价格必须大于0"
  else if d.action = "partial_close" ∧ (d.closePercentage ≤ 0 ∨ d.closePercentage > 100) then
    .error "平仓百分比必须在0-100之间"
  else
    .ok ()

/-- The loop of `validateDecisions`: validates each decision in order, wrapping
the first failure with its 1-based index; `priceOf` stands for the
market-data-map lookup that supplies `currentPrice` (unused by
`validateDecision` since V1.64). -/
def validateDecisionsAux (accountEquity : ℚ) (btcEthLeverage altcoinLeverage : Int)
    (priceOf : String → ℚ) (i : Nat) : List Decision → Except String Unit
  | [] => .ok ()
  | d :: rest =>
    match validateDecision d accountEquity btcEthLeverage altcoinLeverage (priceOf d.symbol) with
    | .error e => .error ("决策 #" ++ toString (i + 1) ++ " 验证失败: " ++ e)
    | .ok () => validateDecisionsAux accountEquity btcEthLeverage altcoinLeverage priceOf (i + 1) rest

/-- `validateDecisions` (`decision` package): one rejection rejects the whole
list. -/
def validateDecisions (decisions : List Decision) (accountEquity : ℚ)
    (btcEthLeverage altcoinLeverage : Int) (priceOf : String → ℚ) : Except String Unit :=
  validateDecisionsAux accountEquity btcEthLeverage altcoinLeverage priceOf 0 decisions

/-- An `open_long` decision with `position_size_usd = 0` and in-range
leverage. -/
def cexZeroNotional : Decision :=
  { symbol := "ETHUSDT", action := "open_long", leverage := 5,
    positionSizeUSD := 0, stopLoss := 1000, takeProfit := 3000,
    confidence := 80, reasoning := "x" }

/-- Claim C5 (counterexample): the validator accepts a decision list containing
an `open_long` whose `position_size_usd` is `0` (not strictly positive) when
its leverage is within range — no notional check exists in `validateDecision`
since V1.64 — so such a list is not rejected. -/
theorem validateDecisions_accepts_zero_notional :
    validateDecisions [cexZeroNotional] 1000 10 10 (fun _ => 0) = .ok () ∧
      cexZeroNotional.action = "open_long" ∧ ¬ 0 < cexZeroNotional.positionSizeUSD := by
  refine ⟨rfl, rfl, by decide⟩

/-- Claim C5 (amended): the Decision Validator performs no notional check: the
outcome of `validateDecision` is invariant under arbitrary replacement of
`position_size_usd` (first conjunct), so a list whose open decisions have
non-positive `position_size_usd` is not rejected for that reason; what does
hold is that one failing decision rejects the whole list (second conjunct). -/
theorem validateDecision_ignores_position_size :
    (∀ (d : Decision) (q accountEquity : ℚ) (b a : Int) (p : ℚ),
      validateDecision { d with positionSizeUSD := q } accountEquity b a p =
        validateDecision d accountEquity b a p) ∧
      (∀ (ds : List Decision) (accountEquity : ℚ) (b a : Int) (priceOf : String → ℚ)
        (d : Decision) (e : String), d ∈ ds →
        validateDecision d accountEquity b a (priceOf d.symbol) = .error e →
        ∃ e', validateDecisions ds accountEquity b a priceOf = .error e') := by
  constructor
  · intro d q accountEquity b a p
    simp only [validateDecision]
  · intro ds accountEquity b a priceOf d e hmem herr
    suffices h : ∀ i, ∃ e',
        validateDecisionsAux accountEquity b a priceOf i ds = .error e' by
      exact h 0
    induction ds with
    | nil => cases hmem
    | cons x rest ih =>
      intro i
      rcases List.mem_cons.mp hmem with hx | hx
      · subst hx
        rw [validateDecisionsAux, herr]
        exact ⟨_, rfl⟩
      · rw [validateDecisionsAux]
        cases hval : validateDecision x accountEquity b a (priceOf x.symbol) with
        | error e0 => exact ⟨_, rfl⟩
        | ok u => cases u; exact ih hx (i + 1)

/-- Witness for the amended C5 theorem at concrete inputs: replacing
`position_size_usd` of the zero-notional open decision by `250` does not change
the validation outcome, and a list containing a decision with an invalid action
is rejected as a whole. -/
theorem validateDecision_ignores_position_size_witness :
    validateDecision { cexZeroNotional with positionSizeUSD := 250 } 1000 10 10 0 =
        validateDecision cexZeroNotional 1000 10 10 0 ∧
      ∃ e', validateDecisions [cexZeroNotional, { symbol := "X", action := "explode" }]
          1000 10 10 (fun _ => 0) = .error e' := by
  constructor
  · exact validateDecision_ignores_position_size.1 cexZeroNotional 250 1000 10 10 0
  · exact validateDecision_ignores_position_size.2
      [cexZeroNotional, { symbol := "X", action := "explode" }] 1000 10 10 (fun _ => 0)
      { symbol := "X", action := "explode" } ("无效的action: " ++ "explode")
      (by simp) rfl

/-! ## Adapter quantity rounding and margin gate
(`trader/okx_trader.go`, `FormatQuantity` 1770–1812 and the V1.67/V1.68
quantity-validation block of `OpenLong` 515–567 / `OpenShort` 860–912) -/

/-- The lot-size rounding of `FormatQuantity` (V1.66), in exact arithmetic: a
positive quantity below one lot is rounded up to one lot, otherwise it is
rounded up to the next multiple of the lot size (`math.Ceil(quantity/lotSz) *
lotSz`); non-positive quantities pass through unchanged.  The final
`fmt.Sprintf` at the symbol precision is exact on multiples of the lot size, so
it is not modelled separately. -/
def formatQuantity (lotSz quantity : ℚ) : ℚ :=
  if 0 < quantity then
    if quantity < lotSz then lotSz
    else (⌈quantity / lotSz⌉ : ℚ) * lotSz
  else quantity

/-- Outcome of the pre-order quantity/margin validation in
`OpenLong`/`OpenShort`. -/
inductive OpenGateError where
  | insufficientMargin
deriving DecidableEq, Repr

/-- The V1.67/V1.68 quantity-validation block shared by `OpenLong` and
`OpenShort`: the requested quantity is rounded by `FormatQuantity`; if the
post-rounding margin `formattedQuantity × currentPrice / leverage` exceeds the
available balance the order fails fast with the structured insufficient-margin
error; a rounded quantity more than 10% above the request only produces a log
warning and is not a failure condition.  On success the order is submitted with
the rounded quantity. -/
def openQuantityGate (lotSz currentPrice availableBalance quantity : ℚ)
    (leverage : Int) : Except OpenGateError ℚ :=
  let formattedQuantity := formatQuantity lotSz quantity
  let formattedMarginRequired := formattedQuantity * currentPrice / (leverage : ℚ)
  if formattedMarginRequired > availableBalance then
    .error .insufficientMargin
  else
    .ok formattedQuantity

/-- Claim C4: for every open order with a positive lot size and positive
requested quantity, the adapter rounds the quantity up to the least multiple of
the lot size that is not below the request (in particular a request strictly
below one lot becomes exactly one lot), then fails fast with the
insufficient-margin error exactly when `rounded × price / leverage` exceeds the
available balance; a rounded quantity exceeding the request by more than 10% is
not by itself a rejection — whenever the margin fits, the gate succeeds with
the rounded quantity. -/
theorem formatQuantity_rounds_up_and_margin_gate
    (lotSz quantity currentPrice availableBalance : ℚ) (leverage : Int)
    (hlot : 0 < lotSz) (hq : 0 < quantity) :
    (∃ n : ℤ, formatQuantity lotSz quantity = (n : ℚ) * lotSz) ∧
      quantity ≤ formatQuantity lotSz quantity ∧
      (∀ m : ℤ, quantity ≤ (m : ℚ) * lotSz → formatQuantity lotSz quantity ≤ (m : ℚ) * lotSz) ∧
      (quantity < lotSz → formatQuantity lotSz quantity = lotSz) ∧
      (openQuantityGate lotSz currentPrice availableBalance quantity leverage =
          .error .insufficientMargin ↔
        formatQuantity lotSz quantity * currentPrice / (leverage : ℚ) > availableBalance) ∧
      (formatQuantity lotSz quantity * currentPrice / (leverage : ℚ) ≤ availableBalance →
        openQuantityGate lotSz currentPrice availableBalance quantity leverage =
          .ok (formatQuantity lotSz quantity)) := by
  have hceil : formatQuantity lotSz quantity = (⌈quantity / lotSz⌉ : ℚ) * lotSz := by
    unfold formatQuantity
    rw [if_pos hq]
    by_cases hlt : quantity < lotSz
    · rw [if_pos hlt]
      have h1 : ⌈quantity / lotSz⌉ = 1 := by
        have hpos : 0 < ⌈quantity / lotSz⌉ := Int.ceil_pos.mpr (div_pos hq hlot)
        have hle : ⌈quantity / lotSz⌉ ≤ 1 := by
          have : quantity / lotSz ≤ 1 := (div_le_one hlot).mpr (le_of_lt hlt)
          calc ⌈quantity / lotSz⌉ ≤ ⌈(1 : ℚ)⌉ := Int.ceil_le_ceil this
            _ = 1 := Int.ceil_one
        omega
      rw [h1]
      norm_num
    · rw [if_neg hlt]
  refine ⟨⟨⌈quantity / lotSz⌉, hceil⟩, ?_, ?_, ?_, ?_, ?_⟩
  · rw [hceil]
    rw [← div_le_iff₀ hlot]
    exact Int.le_ceil _
  · intro m hm
    rw [hceil]
    have : quantity / lotSz ≤ (m : ℚ) := by
      rw [div_le_iff₀ hlot]
      exact hm
    have hc : ⌈quantity / lotSz⌉ ≤ m := Int.ceil_le.mpr this
    have : ((⌈quantity / lotSz⌉ : ℤ) : ℚ) ≤ ((m : ℤ) : ℚ) := by exact_mod_cast hc
    exact mul_le_mul_of_nonneg_right this (le_of_lt hlot)
  · intro hlt
    unfold formatQuantity
    rw [if_pos hq, if_pos hlt]
  · simp only [openQuantityGate]
    by_cases h : formatQuantity lotSz quantity * currentPrice / (leverage : ℚ) > availableBalance
    · rw [if_pos h]
      exact ⟨fun _ => h, fun _ => rfl⟩
    · rw [if_neg h]
      exact ⟨fun hcontra => Except.noConfusion hcontra, fun hgt => absurd hgt h⟩
  · intro h
    simp only [openQuantityGate]
    rw [if_neg (not_lt.mpr h)]

/-- Witness for claim C4 at a concrete input: lot size 0.01, requested quantity
0.003 (below one lot), price 4, available balance 100, leverage 2: the rounding
gives exactly one lot and the gate accepts. -/
theorem formatQuantity_rounds_up_and_margin_gate_witness :
    0 < (1 / 100 : ℚ) ∧ 0 < (3 / 1000 : ℚ) ∧
      formatQuantity (1 / 100) (3 / 1000) = 1 / 100 ∧
      openQuantityGate (1 / 100) 4 100 (3 / 1000) 2 = .ok (1 / 100) := by
  have h := formatQuantity_rounds_up_and_margin_gate (1 / 100) (3 / 1000) 4 100 2
    (by norm_num) (by norm_num)
  have hfq : formatQuantity (1 / 100) (3 / 1000) = 1 / 100 :=
    h.2.2.2.1 (by norm_num)
  refine ⟨by norm_num, by norm_num, hfq, ?_⟩
  have := h.2.2.2.2.2 (by rw [hfq]; norm_num)
  rw [hfq] at this
  exact this

/-! ## Adapter read-through caches (`trader/okx_trader.go`, `GetBalance`
206–284, `GetPositions` 286–401, `CloseLong` 1126–1204) -/

/-- One entry of the OKX positions response, after symbol conversion
(`BTC-USDT-SWAP` → `BTCUSDT`): signed quantity `pos`, declared side, and the
parsed numeric fields used by the rest of the engine. -/
structure RawPosition where
  symbol : String
  pos : ℚ
  posSide : String
  avgPx : ℚ := 0
  markPx : ℚ := 0
  lever : ℚ := 0
deriving DecidableEq, Repr

/-- A position as surfaced by `GetPositions`: zero-quantity entries are
stripped and the quantity is made non-negative. -/
structure ParsedPosition where
  symbol : String
  side : String
  positionAmt : ℚ
  entryPrice : ℚ
  markPrice : ℚ
  leverage : ℚ
deriving DecidableEq, Repr

/-- The per-entry body of the parsing loop in `GetPositions`: entries with
`pos = 0` are skipped; the side comes from `posSide` when it is `long`/`short`
and otherwise from the sign of `pos`. -/
def parsePosition (p : RawPosition) : Option ParsedPosition :=
  if p.pos = 0 then none
  else some
    { symbol := p.symbol
      side :=
        if p.posSide = "long" then "long"
        else if p.posSide = "short" then "short"
        else if 0 < p.pos then "long" else "short"
      positionAmt := |p.pos|
      entryPrice := p.avgPx
      markPrice := p.markPx
      leverage := p.lever }

/-- The parsing loop of `GetPositions`. -/
def parsePositions (raw : List RawPosition) : List ParsedPosition :=
  raw.filterMap parsePosition

/-- The balance summary built by `GetBalance`. -/
structure BalanceResult where
  totalWalletBalance : ℚ
  totalEquity : ℚ
  availableBalance : ℚ
  mgnRatio : ℚ
deriving DecidableEq, Repr

/-- The adapter's cache fields (`cachedBalance`/`balanceCacheTime`,
`cachedPositions`/`positionsCacheTime`); `none` models the Go nil slices/maps.
Times are wall-clock seconds as rationals. -/
structure AdapterCache where
  cachedBalance : Option (BalanceResult × ℚ) := none
  cachedPositions : Option (List ParsedPosition × ℚ) := none
deriving DecidableEq, Repr

/-- `cacheDuration`: 10 seconds. -/
def cacheDuration : ℚ := 10

/-- The API branch of `GetPositions`: a transport failure is an error, a
response is parsed and cached.  A nil (empty) result slice leaves the Go cache
field nil, so an empty snapshot is never cached. -/
def getPositionsFetch (st : AdapterCache) (now : ℚ) (fetch : Option (List RawPosition)) :
    Except String (List ParsedPosition × AdapterCache) :=
  match fetch with
  | none => .error "获取持仓失败"
  | some raw =>
    let result := parsePositions raw
    .ok (result,
      { st with cachedPositions := if result = [] then none else some (result, now) })

/-- `GetPositions` (`trader/okx_trader.go` 286–401): serves the cached snapshot
while it is younger than `cacheDuration`, otherwise fetches. -/
def getPositions (st : AdapterCache) (now : ℚ) (fetch : Option (List RawPosition)) :
    Except String (List ParsedPosition × AdapterCache) :=
  match st.cachedPositions with
  | some (ps, t) =>
    if now - t < cacheDuration then .ok (ps, st)
    else getPositionsFetch st now fetch
  | none => getPositionsFetch st now fetch

/-- The API branch of `GetBalance`. -/
def getBalanceFetch (st : AdapterCache) (now : ℚ) (fetch : Option BalanceResult) :
    Except String (BalanceResult × AdapterCache) :=
  match fetch with
  | none => .error "获取账户信息失败"
  | some b => .ok (b, { st with cachedBalance := some (b, now) })

/-- `GetBalance` (`trader/okx_trader.go` 206–284). -/
def getBalance (st : AdapterCache) (now : ℚ) (fetch : Option BalanceResult) :
    Except String (BalanceResult × AdapterCache) :=
  match st.cachedBalance with
  | some (b, t) =>
    if now - t < cacheDuration then .ok (b, st)
    else getBalanceFetch st now fetch
  | none => getBalanceFetch st now fetch

/-- `CloseLong` (`trader/okx_trader.go` 1126–1204): quantity `0` means "close
all", resolved through `GetPositions` (which may serve the cache); the quantity
is then formatted with `FormatQuantity` and a reduce-only market order is
placed (`orderOk` stands for the venue's accept/reject); after a successful
close `CancelAllOrders` runs, which does not touch either cache.  No branch of
the method writes to `cachedBalance` or `cachedPositions`. -/
def closeLong (st : AdapterCache) (now : ℚ) (symbol : String) (quantity : ℚ)
    (fetch : Option (List RawPosition)) (lotSz : ℚ) (orderOk : Bool) :
    Except String (String × AdapterCache) :=
  let resolved : Except String (ℚ × AdapterCache) :=
    if quantity = 0 then
      match getPositions st now fetch with
      | .error e => .error e
      | .ok (ps, st') =>
        let q := match ps.find? (fun p => p.symbol == symbol && p.side == "long") with
          | some p => p.positionAmt
          | none => 0
        if q = 0 then .error ("没有找到 " ++ symbol ++ " 的多仓") else .ok (q, st')
    else .ok (quantity, st)
  match resolved with
  | .error e => .error e
  | .ok (q, st') =>
    let _quantityStr := formatQuantity lotSz q
    if orderOk then .ok ("filled", st') else .error "平多仓失败"

/-- A concrete cached long position. -/
def posBTCLong : ParsedPosition :=
  { symbol := "BTCUSDT", side := "long", positionAmt := 1 / 100,
    entryPrice := 60000, markPrice := 60500, leverage := 10 }

/-- Adapter state whose positions cache holds `posBTCLong`, fetched at time 0. -/
def cexCloseCache : AdapterCache :=
  { cachedBalance := none, cachedPositions := some ([posBTCLong], 0) }

/-- Claim C1 (counterexample): a successful `CloseLong` at time 1 does not
invalidate the positions cache, and the `GetPositions` at time 2 — within the
10-second window — returns the cached pre-mutation snapshot still containing
the closed position, even though the venue (the fetch argument) now reports no
positions, so the next read does not return post-mutation state. -/
theorem closeLong_does_not_invalidate_cache :
    closeLong cexCloseCache 1 "BTCUSDT" (1 / 100) none (1 / 100) true =
        .ok ("filled", cexCloseCache) ∧
      getPositions cexCloseCache 2 (some []) = .ok ([posBTCLong], cexCloseCache) ∧
      parsePositions [] = [] ∧ [posBTCLong] ≠ ([] : List ParsedPosition) := by
  refine ⟨?_, ?_, rfl, by decide⟩
  · simp only [closeLong]
    rw [if_neg (by norm_num : ¬ (1 / 100 : ℚ) = 0)]
    simp
  · simp only [getPositions, cexCloseCache]
    rw [if_pos (by norm_num [cacheDuration] : (2 : ℚ) - 0 < cacheDuration)]

/-- Claim C1 (amended): the OKX adapter's mutations do not invalidate the
balance and positions caches; the caches expire only through the 10-second
TTL.  Concretely: a successful `close` with an explicit quantity returns the
cache state unchanged; any read within the TTL returns the cached snapshot
regardless of intervening mutations or of current venue state; and once the
TTL has elapsed, the next read fetches and caches fresh state. -/
theorem okx_caches_time_based_only :
    (∀ (st : AdapterCache) (now : ℚ) (symbol : String) (q : ℚ)
        (fetch : Option (List RawPosition)) (lotSz : ℚ) (r : String) (st' : AdapterCache),
      q ≠ 0 → closeLong st now symbol q fetch lotSz true = .ok (r, st') → st' = st) ∧
      (∀ (st : AdapterCache) (now : ℚ) (ps : List ParsedPosition) (t : ℚ)
          (fetch : Option (List RawPosition)),
        st.cachedPositions = some (ps, t) → now - t < cacheDuration →
        getPositions st now fetch = .ok (ps, st)) ∧
      (∀ (st : AdapterCache) (now : ℚ) (ps : List ParsedPosition) (t : ℚ)
          (raw : List RawPosition),
        st.cachedPositions = some (ps, t) → ¬ now - t < cacheDuration →
        getPositions st now (some raw) = .ok (parsePositions raw,
          { st with cachedPositions :=
              if parsePositions raw = [] then none else some (parsePositions raw, now) })) := by
  refine ⟨?_, ?_, ?_⟩
  · intro st now symbol q fetch lotSz r st' hq hok
    simp only [closeLong, if_neg hq, if_true] at hok
    rw [Except.ok.injEq, Prod.mk.injEq] at hok
    exact hok.2.symm
  · intro st now ps t fetch hcache hlt
    simp only [getPositions, hcache, if_pos hlt]
  · intro st now ps t raw hcache hge
    simp only [getPositions, hcache, if_neg hge, getPositionsFetch]

/-- Witness for the amended C1 theorem: closing with quantity 0.01 leaves the
concrete cache untouched; a read at time 2 serves the cache; a read at time 11
fetches the (empty) venue state. -/
theorem okx_caches_time_based_only_witness :
    ((1 : ℚ) / 100 ≠ 0 ∧
      closeLong cexCloseCache 1 "BTCUSDT" (1 / 100) none (1 / 100) true =
        .ok ("filled", cexCloseCache)) ∧
      ((2 : ℚ) - 0 < cacheDuration ∧
        getPositions cexCloseCache 2 (some []) = .ok ([posBTCLong], cexCloseCache)) ∧
      (¬ (11 : ℚ) - 0 < cacheDuration ∧
        getPositions cexCloseCache 11 (some []) =
          .ok ([], { cexCloseCache with cachedPositions := none })) := by
  have h := okx_caches_time_based_only
  refine ⟨⟨by norm_num, ?_⟩, ⟨by norm_num [cacheDuration], ?_⟩,
    ⟨by norm_num [cacheDuration], ?_⟩⟩
  · simp only [closeLong]
    rw [if_neg (by norm_num : ¬ (1 / 100 : ℚ) = 0)]
    simp
  · exact h.2.1 cexCloseCache 2 [posBTCLong] 0 (some []) rfl
      (by norm_num [cacheDuration])
  · have h3 := h.2.2 cexCloseCache 11 [posBTCLong] 0 [] rfl
      (by norm_num [cacheDuration])
    simpa [parsePositions] using h3

/-! ## Duplicate-position guard before open (`mcp/client.go`,
`executeOpenLongWithRecord` 1671–1752) -/

/-- The duplicate-position check at the top of `executeOpenLongWithRecord`:
positions are read through the adapter's `GetPositions` (served from the cache
when it is fresh), a failed read aborts, and the open is refused when the
returned snapshot contains a position of the same symbol and side. -/
def executeOpenLongGuard (st : AdapterCache) (now : ℚ)
    (fetch : Option (List RawPosition)) (symbol : String) :
    Except String AdapterCache :=
  match getPositions st now fetch with
  | .error e => .error ("获取持仓列表失败: " ++ e)
  | .ok (ps, st') =>
    if ps.any (fun p => p.symbol == symbol && p.side == "long") then
      .error (symbol ++ " 已有多仓，拒绝开仓以防止仓位叠加超限")
    else .ok st'

/-- A cached ETH long position. -/
def posETHLong : ParsedPosition :=
  { symbol := "ETHUSDT", side := "long", positionAmt := 2,
    entryPrice := 3000, markPrice := 3050, leverage := 10 }

/-- Venue-side raw positions at open time: the ETH long plus a BTC long that
was opened after the cache was filled. -/
def rawETHLong : RawPosition :=
  { symbol := "ETHUSDT", pos := 2, posSide := "long", avgPx := 3000, markPx := 3050, lever := 10 }

def rawBTCLong : RawPosition :=
  { symbol := "BTCUSDT", pos := 1, posSide := "long", avgPx := 60000, markPx := 60500, lever := 10 }

/-- Adapter state whose positions cache was filled at time 0 with only the ETH
long. -/
def cexGuardCache : AdapterCache :=
  { cachedBalance := none, cachedPositions := some ([posETHLong], 0) }

/-- The parse of `rawBTCLong`. -/
def parsedBTCLong : ParsedPosition :=
  { symbol := "BTCUSDT", side := "long", positionAmt := |(1 : ℚ)|,
    entryPrice := 60000, markPrice := 60500, leverage := 10 }

/-- Claim C3 (counterexample): at time 5 — inside the cache window — the
pre-open check for `BTCUSDT` reads the stale cached snapshot (only the ETH
long) instead of re-reading the venue, and lets the open proceed even though
the venue (the fetch argument, never consulted) holds a same-symbol same-side
position with non-zero quantity; so the check neither bypasses the cache nor
refuses whenever such a position exists. -/
theorem openGuard_reads_cache_not_venue :
    executeOpenLongGuard cexGuardCache 5 (some [rawETHLong, rawBTCLong]) "BTCUSDT" =
        .ok cexGuardCache ∧
      ∃ p ∈ parsePositions [rawETHLong, rawBTCLong],
        p.symbol = "BTCUSDT" ∧ p.side = "long" ∧ p.positionAmt ≠ 0 := by
  have hget : getPositions cexGuardCache 5 (some [rawETHLong, rawBTCLong]) =
      .ok ([posETHLong], cexGuardCache) := by
    simp only [getPositions, cexGuardCache]
    rw [if_pos (by norm_num [cacheDuration] : (5 : ℚ) - 0 < cacheDuration)]
  constructor
  · simp only [executeOpenLongGuard, hget]
    rw [if_neg (by decide :
      ¬ [posETHLong].any (fun p => p.symbol == "BTCUSDT" && p.side == "long") = true)]
  · refine ⟨parsedBTCLong, ?_, rfl, rfl, ?_⟩
    · have heq : parsePositions [rawETHLong, rawBTCLong] =
          [{ symbol := "ETHUSDT", side := "long", positionAmt := |(2 : ℚ)|,
             entryPrice := 3000, markPrice := 3050, leverage := 10 }, parsedBTCLong] := by
        simp only [parsePositions, List.filterMap_cons, List.filterMap_nil, parsePosition]
        rw [if_neg (by norm_num [rawETHLong] : ¬ rawETHLong.pos = 0),
          if_neg (by norm_num [rawBTCLong] : ¬ rawBTCLong.pos = 0)]
        rfl
      rw [heq]
      simp
    · show ¬ |(1 : ℚ)| = 0
      norm_num

/-- Claim C3 (amended): before every open the sequencer reads positions through
the adapter's `GetPositions` — which may serve a snapshot cached for up to 10
seconds rather than bypassing the cache — and refuses with an already-open
error exactly when that snapshot contains a position of the same symbol and
side; every entry of a parsed snapshot has non-zero quantity, so the non-zero
condition is implicit in the snapshot. -/
theorem openGuard_refuses_iff_snapshot_has_same_side :
    (∀ (st : AdapterCache) (now : ℚ) (fetch : Option (List RawPosition))
        (symbol : String) (ps : List ParsedPosition) (st' : AdapterCache),
      getPositions st now fetch = .ok (ps, st') →
      ((∃ e, executeOpenLongGuard st now fetch symbol = .error e) ↔
        ∃ p ∈ ps, p.symbol = symbol ∧ p.side = "long") ∧
      ((¬ ∃ p ∈ ps, p.symbol = symbol ∧ p.side = "long") →
        executeOpenLongGuard st now fetch symbol = .ok st')) ∧
      (∀ (raw : List RawPosition) (p : ParsedPosition),
        p ∈ parsePositions raw → p.positionAmt ≠ 0) := by
  constructor
  · intro st now fetch symbol ps st' hget
    have hany : (ps.any (fun p => p.symbol == symbol && p.side == "long") = true) ↔
        ∃ p ∈ ps, p.symbol = symbol ∧ p.side = "long" := by
      simp [List.any_eq_true]
    constructor
    · simp only [executeOpenLongGuard, hget]
      by_cases h : ps.any (fun p => p.symbol == symbol && p.side == "long")
      · rw [if_pos h]
        exact ⟨fun _ => hany.mp h, fun _ => ⟨_, rfl⟩⟩
      · rw [if_neg h]
        constructor
        · rintro ⟨e, he⟩
          exact Except.noConfusion he
        · intro hex
          exact absurd (hany.mpr hex) h
    · intro hnone
      simp only [executeOpenLongGuard, hget]
      rw [if_neg (fun h => hnone (hany.mp h))]
  · intro raw p hp
    rw [parsePositions, List.mem_filterMap] at hp
    obtain ⟨r, _, hr⟩ := hp
    rw [parsePosition] at hr
    by_cases h0 : r.pos = 0
    · rw [if_pos h0] at hr
      cases hr
    · rw [if_neg h0] at hr
      injection hr with hr
      have : p.positionAmt = |r.pos| := by rw [← hr]
      rw [this]
      exact abs_ne_zero.mpr h0

/-- Witness for the amended C3 theorem: on the concrete stale cache the guard
lets the BTC open proceed (no ETH-style match in the snapshot), refuses an ETH
open, and the parsed venue positions all have non-zero quantity. -/
theorem openGuard_refuses_iff_snapshot_witness :
    executeOpenLongGuard cexGuardCache 5 (some [rawETHLong, rawBTCLong]) "BTCUSDT" =
        .ok cexGuardCache ∧
      (∃ e, executeOpenLongGuard cexGuardCache 5 (some [rawETHLong, rawBTCLong]) "ETHUSDT" =
        .error e) := by
  have h := openGuard_refuses_iff_snapshot_has_same_side
  have hget : getPositions cexGuardCache 5 (some [rawETHLong, rawBTCLong]) =
      .ok ([posETHLong], cexGuardCache) := by
    simp only [getPositions, cexGuardCache]
    rw [if_pos (by norm_num [cacheDuration] : (5 : ℚ) - 0 < cacheDuration)]
  constructor
  · refine (h.1 cexGuardCache 5 (some [rawETHLong, rawBTCLong]) "BTCUSDT"
      [posETHLong] cexGuardCache hget).2 ?_
    rintro ⟨p, hp, hsym, -⟩
    rw [List.mem_singleton] at hp
    subst hp
    exact absurd hsym (by decide)
  · exact (h.1 cexGuardCache 5 (some [rawETHLong, rawBTCLong]) "ETHUSDT"
      [posETHLong] cexGuardCache hget).1.mpr ⟨posETHLong, List.mem_singleton_self _, rfl, rfl⟩

/-! ## Drawdown monitor (`mcp/client.go`, `checkPositionDrawdown` 2466–2536,
`UpdatePeakPnL` 2574–2587, `ClearPeakPnLCache` 2590–2595) -/

/-- A position as seen by the monitor's loop over `GetPositions` entries. -/
structure MonitorPosition where
  symbol : String
  side : String
  entryPrice : ℚ
  markPrice : ℚ
  leverage : Int
deriving DecidableEq, Repr

/-- The per-position leveraged return: `((mark − entry)/entry) × leverage ×
100` for a long, mirrored for a short. -/
def currentPnLPct (p : MonitorPosition) : ℚ :=
  if p.side = "long" then
    (p.markPrice - p.entryPrice) / p.entryPrice * (p.leverage : ℚ) * 100
  else
    (p.entryPrice - p.markPrice) / p.entryPrice * (p.leverage : ℚ) * 100

/-- The per-trader peak-PnL map, keyed by symbol. -/
abbrev PeakCache := List (String × ℚ)

/-- Map lookup on the peak cache. -/
def lookupPeak (c : PeakCache) (symbol : String) : Option ℚ :=
  match c.find? (fun kv => kv.1 == symbol) with
  | some kv => some kv.2
  | none => none

/-- `UpdatePeakPnL`: raises the stored peak to the current value when the
current value exceeds it; records the current value on first sight. -/
def updatePeakPnL : PeakCache → String → ℚ → PeakCache
  | [], symbol, v => [(symbol, v)]
  | (k, peak) :: rest, symbol, v =>
    if k = symbol then (if v > peak then (k, v) else (k, peak)) :: rest
    else (k, peak) :: updatePeakPnL rest symbol v

/-- `ClearPeakPnLCache`: deletes the entry for `symbol`. -/
def clearPeakPnLCache (c : PeakCache) (symbol : String) : PeakCache :=
  c.filter (fun kv => ¬ kv.1 = symbol)

/-- Calls the monitor can make on the exchange adapter. -/
inductive AdapterCall where
  | closeLongAll (symbol : String)
  | closeShortAll (symbol : String)
  | openLong (symbol : String)
  | openShort (symbol : String)
deriving DecidableEq, Repr

/-- `emergencyClosePosition`: closes the whole side (`CloseLong`/`CloseShort`
with quantity 0). -/
def emergencyClosePosition (symbol side : String) : Option AdapterCall :=
  if side = "long" then some (.closeLongAll symbol)
  else if side = "short" then some (.closeShortAll symbol)
  else none

/-- The local `peakPnLPct` of the monitor body: the stored peak, or the current
value at first sight of the symbol. -/
def prevPeak (cache : PeakCache) (p : MonitorPosition) : ℚ :=
  match lookupPeak cache p.symbol with
  | some peak => peak
  | none => currentPnLPct p

/-- The local `drawdownPct` of the monitor body: `(peak − current)/peak × 100`
when the stored peak is positive and above the current value, 0 otherwise. -/
def drawdownPct (cache : PeakCache) (p : MonitorPosition) : ℚ :=
  if prevPeak cache p > 0 ∧ currentPnLPct p < prevPeak cache p then
    (prevPeak cache p - currentPnLPct p) / prevPeak cache p * 100
  else 0

/-- The per-position body of `checkPositionDrawdown`: computes the current
leveraged return, reads the previous peak (defaulting to the current value on
first sight), updates the peak cache via `UpdatePeakPnL`, computes the drawdown
from the previous peak, and when `current > 5` and `drawdown ≥ 40` issues an
emergency close of the whole side; `closeOk` stands for the outcome of that
close — only a successful close clears the symbol's peak entry. -/
def checkPositionDrawdownStep (closeOk : Bool) (cache : PeakCache)
    (p : MonitorPosition) : PeakCache × Option AdapterCall :=
  let cache' := updatePeakPnL cache p.symbol (currentPnLPct p)
  if currentPnLPct p > 5 ∧ drawdownPct cache p ≥ 40 then
    match emergencyClosePosition p.symbol p.side with
    | some call =>
      if closeOk then (clearPeakPnLCache cache' p.symbol, some call)
      else (cache', some call)
    | none => (cache', none)
  else (cache', none)

/-- One monitor tick: `checkPositionDrawdown` folds the step over the positions
returned by `GetPositions`, threading the peak cache and collecting the
emergency closes it issues. -/
def checkPositionDrawdown (closeOk : Bool) (cache : PeakCache)
    (positions : List MonitorPosition) : PeakCache × List AdapterCall :=
  positions.foldl
    (fun acc p =>
      let r := checkPositionDrawdownStep closeOk acc.1 p
      (r.1, acc.2 ++ (r.2.map (fun c => [c])).getD []))
    (cache, [])

/-- The peak as claimed to be maintained: `max(previous peak, current)`, with
the current value on first sight. -/
def claimedPeak (cache : PeakCache) (p : MonitorPosition) : ℚ :=
  match lookupPeak cache p.symbol with
  | some peak => max peak (currentPnLPct p)
  | none => currentPnLPct p

theorem lookupPeak_updatePeakPnL_self (c : PeakCache) (s : String) (v : ℚ) :
    lookupPeak (updatePeakPnL c s v) s =
      some (match lookupPeak c s with | some peak => max peak v | none => v) := by
  induction c with
  | nil => simp [updatePeakPnL, lookupPeak, max_comm]
  | cons kv rest ih =>
    obtain ⟨k, peak⟩ := kv
    by_cases hk : k = s
    · subst hk
      by_cases hv : v > peak
      · simp [updatePeakPnL, lookupPeak, if_pos hv, max_eq_right (le_of_lt hv)]
      · simp [updatePeakPnL, lookupPeak, if_neg hv, max_eq_left (not_lt.mp hv)]
    · simp only [updatePeakPnL, if_neg hk]
      have hbeq : (k == s) = false := beq_eq_false_iff_ne.mpr hk
      simp only [lookupPeak, List.find?_cons, hbeq] at ih ⊢
      exact ih

/-- Claim C8: on a monitor tick, for every open position with leveraged return
`current` and peak maintained as `max(peak, current)` (current on first sight),
the step issues an emergency close of the whole side if and only if
`current > 5` (percent) and `(peak − current)/peak × 100 ≥ 40`; in particular a
drawdown of exactly 40% with current above 5% triggers (peak 10 → current 6)
while 39.9% does not (peak 1000 → current 601, drawdown 39.9); a successful
close clears the peak entry for the symbol; and every call the monitor issues
is a whole-side close — it never opens positions. -/
theorem emergencyClose_is_close (symbol side : String) (c : AdapterCall)
    (h : emergencyClosePosition symbol side = some c) :
    (∃ s, c = .closeLongAll s) ∨ ∃ s, c = .closeShortAll s := by
  unfold emergencyClosePosition at h
  split_ifs at h
  · exact Or.inl ⟨symbol, (Option.some.injEq _ _ ▸ h).symm⟩
  · exact Or.inr ⟨symbol, (Option.some.injEq _ _ ▸ h).symm⟩

theorem checkStep_call_eq (closeOk : Bool) (cache : PeakCache) (p : MonitorPosition)
    (c : AdapterCall) (h : (checkPositionDrawdownStep closeOk cache p).2 = some c) :
    emergencyClosePosition p.symbol p.side = some c := by
  simp only [checkPositionDrawdownStep] at h
  split at h
  · cases hec : emergencyClosePosition p.symbol p.side with
    | none => rw [hec] at h; cases h
    | some call2 =>
      rw [hec] at h
      cases closeOk with
      | true =>
        simp at h
        rw [← h]
      | false =>
        simp at h
        rw [← h]
  · cases h

theorem lookupPeak_clear (c : PeakCache) (s : String) :
    lookupPeak (clearPeakPnLCache c s) s = none := by
  induction c with
  | nil => rfl
  | cons kv rest ih =>
    simp only [clearPeakPnLCache, List.filter_cons] at ih ⊢
    by_cases h : kv.1 = s
    · rw [if_neg (by simp [h])]
      exact ih
    · rw [if_pos (by simp [h])]
      simp only [lookupPeak] at ih ⊢
      rw [List.find?_cons_of_neg _ (by simp [h])]
      exact ih

/-- Claim C8: on a monitor tick, for every open position with leveraged return
`current` and peak maintained as `max(peak, current)` (current on first sight),
the step issues an emergency close of the whole side if and only if
`current > 5` (percent) and `(peak − current)/peak × 100 ≥ 40` — so a drawdown
of exactly 40% with current above 5% triggers while 39.9% does not (checked
below at peak 10 → current 6 and peak 1000 → current 601); a successful close
clears the peak entry for the symbol; and every call the monitor issues is a
whole-side close — it never opens positions. -/
theorem checkPositionDrawdown_trigger_iff (closeOk : Bool) (cache : PeakCache)
    (p : MonitorPosition) :
    (p.side = "long" ∨ p.side = "short") →
    (((checkPositionDrawdownStep closeOk cache p).2.isSome) ↔
      (currentPnLPct p > 5 ∧
        (claimedPeak cache p - currentPnLPct p) / claimedPeak cache p * 100 ≥ 40)) ∧
    (closeOk = true → (checkPositionDrawdownStep closeOk cache p).2.isSome →
      lookupPeak (checkPositionDrawdownStep closeOk cache p).1 p.symbol = none) ∧
    (∀ call ∈ (checkPositionDrawdown closeOk cache [p]).2,
      (∃ s, call = .closeLongAll s) ∨ ∃ s, call = .closeShortAll s) := by
  intro hside
  have hclose : ∃ call, emergencyClosePosition p.symbol p.side = some call := by
    rcases hside with h | h <;> simp [emergencyClosePosition, h]
  obtain ⟨call, hcall⟩ := hclose
  -- the trigger condition of the code and of the claim agree
  have hiff : (currentPnLPct p > 5 ∧ drawdownPct cache p ≥ 40) ↔
      (currentPnLPct p > 5 ∧
        (claimedPeak cache p - currentPnLPct p) / claimedPeak cache p * 100 ≥ 40) := by
    unfold drawdownPct prevPeak claimedPeak
    set cur := currentPnLPct p with hcur
    cases hlk : lookupPeak cache p.symbol with
    | none =>
      simp only
      constructor
      · rintro ⟨h5, hdd⟩
        rw [if_neg (by rintro ⟨-, hlt⟩; exact absurd hlt (lt_irrefl _))] at hdd
        exact absurd hdd (by norm_num)
      · rintro ⟨h5, hdd⟩
        exact absurd hdd (by simp [sub_self])
    | some peak =>
      simp only
      by_cases hlt : cur < peak
      · rw [max_eq_left (le_of_lt hlt)]
        constructor
        · rintro ⟨h5, hdd⟩
          refine ⟨h5, ?_⟩
          by_cases hpos : peak > 0
          · rwa [if_pos ⟨hpos, hlt⟩] at hdd
          · rw [if_neg (fun hc => hpos hc.1)] at hdd
            exact absurd hdd (by norm_num)
        · rintro ⟨h5, hdd⟩
          refine ⟨h5, ?_⟩
          have hpos : peak > 0 := lt_trans (by norm_num) (lt_trans h5 hlt)
          rwa [if_pos ⟨hpos, hlt⟩]
      · rw [max_eq_right (not_lt.mp hlt)]
        constructor
        · rintro ⟨h5, hdd⟩
          rw [if_neg (fun hc => hlt hc.2)] at hdd
          exact absurd hdd (by norm_num)
        · rintro ⟨h5, hdd⟩
          exact absurd hdd (by simp [sub_self])
  refine ⟨?_, ?_, ?_⟩
  · rw [← hiff]
    simp only [checkPositionDrawdownStep, hcall]
    by_cases htrig : currentPnLPct p > 5 ∧ drawdownPct cache p ≥ 40
    · rw [if_pos htrig]
      simp only [htrig, iff_true]
      by_cases hok : closeOk <;> simp [hok]
    · rw [if_neg htrig]
      simp only [Option.isSome_none, Bool.false_eq_true, false_iff]
      exact fun hc => htrig hc
  · intro hok htrig
    subst hok
    simp only [checkPositionDrawdownStep, hcall] at htrig ⊢
    by_cases htr : currentPnLPct p > 5 ∧ drawdownPct cache p ≥ 40
    · rw [if_pos htr]
      simp only [if_true]
      exact lookupPeak_clear _ _
    · rw [if_neg htr] at htrig
      simp at htrig
  · intro c hc
    simp only [checkPositionDrawdown, List.foldl_cons, List.foldl_nil] at hc
    cases hmatch : (checkPositionDrawdownStep closeOk cache p).2 with
    | none =>
      rw [hmatch] at hc
      simp at hc
    | some c0 =>
      rw [hmatch] at hc
      simp at hc
      rw [hc]
      exact emergencyClose_is_close p.symbol p.side c0
        (checkStep_call_eq closeOk cache p c0 hmatch)

/-- A SOL long whose leveraged return is +6%. -/
def solPos6 : MonitorPosition :=
  { symbol := "SOLUSDT", side := "long", entryPrice := 100,
    markPrice := 1006 / 10, leverage := 10 }

/-- A SOL long whose leveraged return is +601%. -/
def solPos601 : MonitorPosition :=
  { symbol := "SOLUSDT", side := "long", entryPrice := 100,
    markPrice := 16010 / 100, leverage := 10 }

theorem checkPositionDrawdown_trigger_iff_witness :
    (currentPnLPct solPos6 = 6 ∧
      (checkPositionDrawdownStep true [("SOLUSDT", 10)] solPos6).2.isSome = true ∧
      lookupPeak (checkPositionDrawdownStep true [("SOLUSDT", 10)] solPos6).1
        "SOLUSDT" = none) ∧
      (checkPositionDrawdownStep true [("SOLUSDT", 1000)] solPos601).2.isSome = false := by
  have hcur : currentPnLPct solPos6 = 6 := by
    simp only [currentPnLPct, solPos6, if_pos rfl]
    norm_num
  have hcur2 : currentPnLPct solPos601 = 601 := by
    simp only [currentPnLPct, solPos601, if_pos rfl]
    norm_num
  have hlk : lookupPeak [("SOLUSDT", (10 : ℚ))] "SOLUSDT" = some 10 := by
    simp [lookupPeak, List.find?]
  have hlk2 : lookupPeak [("SOLUSDT", (1000 : ℚ))] "SOLUSDT" = some 1000 := by
    simp [lookupPeak, List.find?]
  have h1 := checkPositionDrawdown_trigger_iff true [("SOLUSDT", 10)] solPos6
    (Or.inl rfl)
  have h2 := checkPositionDrawdown_trigger_iff true [("SOLUSDT", 1000)] solPos601
    (Or.inl rfl)
  have hfire : (checkPositionDrawdownStep true [("SOLUSDT", 10)] solPos6).2.isSome = true := by
    rw [h1.1]
    constructor
    · rw [hcur]; norm_num
    · have hsym : solPos6.symbol = "SOLUSDT" := rfl
      simp only [claimedPeak, hsym, hlk, hcur]
      rw [max_eq_left (by norm_num : (6 : ℚ) ≤ 10)]
      norm_num
  refine ⟨⟨hcur, hfire, h1.2.1 rfl hfire⟩, ?_⟩
  rw [Bool.eq_false_iff]
  intro hsome
  have hcl := h2.1.mp hsome
  have hclaim : claimedPeak [("SOLUSDT", 1000)] solPos601 = 1000 := by
    have hsym : solPos601.symbol = "SOLUSDT" := rfl
    simp only [claimedPeak, hsym, hlk2, hcur2]
    exact max_eq_left (by norm_num)
  rw [hclaim, hcur2] at hcl
  have h399 : ((1000 : ℚ) - 601) / 1000 * 100 = 399 / 10 := by norm_num
  rw [h399] at hcl
  exact absurd hcl.2 (by norm_num)

theorem lookupPeak_updatePeakPnL_of_lt (c : PeakCache) (s : String) (peak v : ℚ)
    (hlk : lookupPeak c s = some peak) (hv : v < peak) :
    lookupPeak (updatePeakPnL c s v) s = some peak := by
  rw [lookupPeak_updatePeakPnL_self, hlk]
  simp [max_eq_left (le_of_lt hv)]

/-- Claim C10: if the emergency close issued by the monitor fails
(`closeOk = false`), the peak-PnL entry for the symbol is retained with its
previous value (it would be deleted only after a successful close, as the
second conjunct shows), and re-running the step on the same position against
the resulting cache re-issues the same emergency close. -/
theorem failedClose_retains_peak (cache : PeakCache) (p : MonitorPosition)
    (peak : ℚ) (hside : p.side = "long" ∨ p.side = "short")
    (hlk : lookupPeak cache p.symbol = some peak)
    (htrig : (checkPositionDrawdownStep false cache p).2.isSome) :
    lookupPeak (checkPositionDrawdownStep false cache p).1 p.symbol = some peak ∧
      (checkPositionDrawdownStep false (checkPositionDrawdownStep false cache p).1 p).2 =
        (checkPositionDrawdownStep false cache p).2 ∧
      ((checkPositionDrawdownStep true cache p).2.isSome →
        lookupPeak (checkPositionDrawdownStep true cache p).1 p.symbol = none) := by
  have hclose : ∃ call, emergencyClosePosition p.symbol p.side = some call := by
    rcases hside with h | h <;> simp [emergencyClosePosition, h]
  obtain ⟨call, hcall⟩ := hclose
  -- on the failure path the step must have triggered
  have htr : currentPnLPct p > 5 ∧ drawdownPct cache p ≥ 40 := by
    by_contra hc
    simp only [checkPositionDrawdownStep, if_neg hc] at htrig
    simp at htrig
  -- in the triggering case the current value is strictly below the stored peak
  have hprev : prevPeak cache p = peak := by simp [prevPeak, hlk]
  have hlt : currentPnLPct p < peak := by
    rcases htr with ⟨h5, hdd⟩
    by_contra hge
    have hz : drawdownPct cache p = 0 := by
      unfold drawdownPct
      rw [hprev]
      exact if_neg (fun hc => hge hc.2)
    rw [hz] at hdd
    exact absurd hdd (by norm_num)
  have hretain : lookupPeak (updatePeakPnL cache p.symbol (currentPnLPct p)) p.symbol =
      some peak := lookupPeak_updatePeakPnL_of_lt cache p.symbol peak _ hlk hlt
  have hstep : checkPositionDrawdownStep false cache p =
      (updatePeakPnL cache p.symbol (currentPnLPct p), some call) := by
    simp only [checkPositionDrawdownStep, hcall, if_pos htr]
    simp
  refine ⟨?_, ?_, ?_⟩
  · rw [hstep]
    exact hretain
  · rw [hstep]
    -- the preserved peak yields the same trigger on the next tick
    have hprev' : prevPeak (updatePeakPnL cache p.symbol (currentPnLPct p)) p = peak := by
      simp [prevPeak, hretain]
    have hdd' : drawdownPct (updatePeakPnL cache p.symbol (currentPnLPct p)) p =
        drawdownPct cache p := by
      unfold drawdownPct
      rw [hprev', hprev]
    have htr' : currentPnLPct p > 5 ∧
        drawdownPct (updatePeakPnL cache p.symbol (currentPnLPct p)) p ≥ 40 := by
      rw [hdd']
      exact htr
    simp only [checkPositionDrawdownStep, hcall, if_pos htr', if_pos htr]
    simp
  · intro hsome
    simp only [checkPositionDrawdownStep, hcall, if_pos htr]
    simp only [if_true]
    exact lookupPeak_clear _ _

/-- Witness for claim C10 at a concrete input: SOL long at +6% against a stored
peak of 10 (drawdown 40%): the close fires, fails, and the peak entry still
reads 10. -/
theorem failedClose_retains_peak_witness :
    ((solPos6.side = "long" ∨ solPos6.side = "short") ∧
      lookupPeak [("SOLUSDT", (10 : ℚ))] solPos6.symbol = some 10 ∧
      (checkPositionDrawdownStep false [("SOLUSDT", 10)] solPos6).2.isSome = true) ∧
      lookupPeak (checkPositionDrawdownStep false [("SOLUSDT", 10)] solPos6).1
        solPos6.symbol = some 10 := by
  have hcur : currentPnLPct solPos6 = 6 := by
    simp only [currentPnLPct, solPos6, if_pos rfl]
    norm_num
  have hsym : solPos6.symbol = "SOLUSDT" := rfl
  have hlk : lookupPeak [("SOLUSDT", (10 : ℚ))] solPos6.symbol = some 10 := by
    rw [hsym]
    simp [lookupPeak, List.find?]
  have hprev : prevPeak [("SOLUSDT", (10 : ℚ))] solPos6 = 10 := by
    simp [prevPeak, hlk]
  have hdd : drawdownPct [("SOLUSDT", (10 : ℚ))] solPos6 = 40 := by
    unfold drawdownPct
    rw [hprev, hcur]
    rw [if_pos ⟨by norm_num, by norm_num⟩]
    norm_num
  have htrig : (checkPositionDrawdownStep false [("SOLUSDT", 10)] solPos6).2.isSome = true := by
    simp only [checkPositionDrawdownStep,
      if_pos (⟨by rw [hcur]; norm_num, by rw [hdd]⟩ :
        currentPnLPct solPos6 > 5 ∧ drawdownPct [("SOLUSDT", (10 : ℚ))] solPos6 ≥ 40)]
    rw [hsym]
    simp [emergencyClosePosition, solPos6]
  refine ⟨⟨Or.inl rfl, hlk, htrig⟩, ?_⟩
  exact (failedClose_retains_peak [("SOLUSDT", 10)] solPos6 10 (Or.inl rfl) hlk htrig).1

/-! ## Balance auto-sync (`mcp/client.go`, `autoSyncBalanceIfNeeded`
1133–1225) -/

/-- The three balance fields `autoSyncBalanceIfNeeded` probes in order
(`available_balance`, `availableBalance`, `balance`). -/
structure BalanceInfo where
  availableUnderscore : Option ℚ
  availableCamel : Option ℚ
  balance : Option ℚ
deriving DecidableEq, Repr

/-- The extraction chain of `autoSyncBalanceIfNeeded`: the first of the three
fields that is present and strictly positive; `none` when no usable field
exists. -/
def extractBalance (b : BalanceInfo) : Option ℚ :=
  match b.availableUnderscore with
  | some v =>
    if v > 0 then some v
    else extractBalanceCamel b
  | none => extractBalanceCamel b
where
  extractBalanceCamel (b : BalanceInfo) : Option ℚ :=
    match b.availableCamel with
    | some v =>
      if v > 0 then some v
      else extractBalanceLast b
    | none => extractBalanceLast b
  extractBalanceLast (b : BalanceInfo) : Option ℚ :=
    match b.balance with
    | some v => if v > 0 then some v else none
    | none => none

/-- The trader state touched by the auto-sync. -/
structure SyncState where
  lastBalanceSyncTime : ℚ
  initialBalance : ℚ
deriving DecidableEq, Repr

/-- `autoSyncBalanceIfNeeded`: skips (without fetching) while fewer than 10
minutes (600 s) have passed since the last sync; otherwise fetches the balance
(`fetch = none` models a failed `GetBalance`), extracts a usable field, and on
success replaces the declared initial balance when it is invalid (≤ 0) or when
the change exceeds 5%; in every fetching path the last-sync timestamp advances
to `now`.  The returned boolean reports whether a fetch was attempted. -/
def autoSyncBalanceIfNeeded (st : SyncState) (now : ℚ) (fetch : Option BalanceInfo) :
    SyncState × Bool :=
  if now - st.lastBalanceSyncTime < 600 then (st, false)
  else
    match fetch with
    | none => ({ st with lastBalanceSyncTime := now }, true)
    | some info =>
      match extractBalance info with
      | none => ({ st with lastBalanceSyncTime := now }, true)
      | some actualBalance =>
        if st.initialBalance ≤ 0 then
          ({ lastBalanceSyncTime := now, initialBalance := actualBalance }, true)
        else
          let changePercent := (actualBalance - st.initialBalance) / st.initialBalance * 100
          if |changePercent| > 5 then
            ({ lastBalanceSyncTime := now, initialBalance := actualBalance }, true)
          else ({ st with lastBalanceSyncTime := now }, true)

/-- Claim C9: when the auto-sync runs past its 10-minute threshold and either
the balance fetch fails or no usable balance field can be extracted, it still
advances the last-sync timestamp to `now` and leaves the declared initial
balance unchanged; consequently, for the next 10 minutes every further call
returns immediately without attempting a fetch. -/
theorem autoSync_advances_timestamp_on_failure (st : SyncState) (now : ℚ)
    (fetch : Option BalanceInfo)
    (hdue : ¬ now - st.lastBalanceSyncTime < 600)
    (hfail : fetch = none ∨ ∃ info, fetch = some info ∧ extractBalance info = none) :
    autoSyncBalanceIfNeeded st now fetch =
        ({ lastBalanceSyncTime := now, initialBalance := st.initialBalance }, true) ∧
      (∀ (now' : ℚ) (fetch' : Option BalanceInfo), now' - now < 600 →
        autoSyncBalanceIfNeeded (autoSyncBalanceIfNeeded st now fetch).1 now' fetch' =
          ((autoSyncBalanceIfNeeded st now fetch).1, false)) := by
  have hmain : autoSyncBalanceIfNeeded st now fetch =
      ({ lastBalanceSyncTime := now, initialBalance := st.initialBalance }, true) := by
    rcases hfail with hf | ⟨info, hf, hext⟩
    · subst hf
      simp only [autoSyncBalanceIfNeeded, if_neg hdue]
    · subst hf
      simp only [autoSyncBalanceIfNeeded, if_neg hdue, hext]
  refine ⟨hmain, ?_⟩
  intro now' fetch' hsoon
  rw [hmain]
  simp only [autoSyncBalanceIfNeeded]
  rw [if_pos hsoon]

/-- Witness for claim C9: initial balance 100, last sync at time 0, a failed
fetch at time 700 advances the timestamp and keeps the balance; the follow-up
call at time 900 does nothing. -/
theorem autoSync_advances_timestamp_on_failure_witness :
    (¬ (700 : ℚ) - 0 < 600 ∧
      autoSyncBalanceIfNeeded ⟨0, 100⟩ 700 none = (⟨700, 100⟩, true)) ∧
      ((900 : ℚ) - 700 < 600 ∧
        autoSyncBalanceIfNeeded ⟨700, 100⟩ 900 none = (⟨700, 100⟩, false)) := by
  have h := autoSync_advances_timestamp_on_failure ⟨0, 100⟩ 700 none
    (by norm_num) (Or.inl rfl)
  refine ⟨⟨by norm_num, h.1⟩, ⟨by norm_num, ?_⟩⟩
  have h2 := h.2 900 none (by norm_num)
  rw [h.1] at h2
  exact h2

/-! ## JSON repair pipeline (`decision` package: `removeInvisibleRunes`,
`fixMissingQuotes` 1099–1125, `fixEmptyStringFields` 1130–1168,
`fixThousandSeparators` 1173–1199)

Go strings are modelled as rune (`Char`) lists.  Each regex
`ReplaceAllString` is translated to a left-to-right scanner with the same
leftmost, greedy-star semantics (for these patterns the star subjects —
`\s` and `\d` — are disjoint from the following literal, so greedy maximal
munch is exact). -/

/-- Go's regex `\s` class: `[\t\n\f\r ]`. -/
def goWhitespace (c : Char) : Bool :=
  c = ' ' || c = '\t' || c = '\n' || c = '\x0c' || c = '\r'

/-- The character class of `reInvisibleRunes`: zero-width space, zero-width
non-joiner, zero-width joiner, BOM. -/
def isInvisibleRune (c : Char) : Bool :=
  c = '\u200B' || c = '\u200C' || c = '\u200D' || c = '\uFEFF'

/-- `removeInvisibleRunes`: strips zero-width and BOM runes. -/
def removeInvisibleRunes (s : List Char) : List Char :=
  s.filter (fun c => !isInvisibleRune c)

/-- The character translation performed by `fixMissingQuotes`: every
`strings.ReplaceAll` in that function replaces one rune by one rune, so the
whole function is a character map.  Sources and targets follow the Go body:
curly quotes → ASCII quotes, fullwidth brackets/braces/colon/comma and CJK
brackets/comma → ASCII, ideographic space → space. -/
def quoteMap (c : Char) : Char :=
  if c = '“' ∨ c = '”' then '"'
  else if c = '‘' ∨ c = '’' then '\''
  else if c = '［' ∨ c = '【' ∨ c = '〔' then '['
  else if c = '］' ∨ c = '】' ∨ c = '〕' then ']'
  else if c = '｛' then '{'
  else if c = '｝' then '}'
  else if c = '：' then ':'
  else if c = '，' ∨ c = '、' then ','
  else if c = '　' then ' '
  else c

/-- `fixMissingQuotes` as a rune map. -/
def fixMissingQuotes (s : List Char) : List Char := s.map quoteMap

/-- Matcher for the tail `""` of the pattern `"key"\s*:\s*""`: expects one
final quote (the first quote having been consumed by `matchQuoteWs`). -/
def matchQuote2 : List Char → Option (List Char)
  | [] => none
  | x :: s => if x = '"' then some s else none

/-- Matcher for `\s*""`: munches whitespace, then expects the two quotes. -/
def matchQuoteWs : List Char → Option (List Char)
  | [] => none
  | x :: s =>
    if goWhitespace x then matchQuoteWs s
    else if x = '"' then matchQuote2 s
    else none

/-- Matcher for `\s*:\s*""`: munches whitespace, then expects the colon and
the quoted tail. -/
def matchColonWs : List Char → Option (List Char)
  | [] => none
  | x :: s =>
    if goWhitespace x then matchColonWs s
    else if x = ':' then matchQuoteWs s
    else none

/-- Matches a literal character list and then the `\s*:\s*""` tail. -/
def matchLitThen : List Char → List Char → Option (List Char)
  | [], s => matchColonWs s
  | _ :: _, [] => none
  | c :: L, x :: s => if x = c then matchLitThen L s else none

/-- The literal part `"key"` of the pattern. -/
def keyPattern (k : List Char) : List Char := '"' :: (k ++ ['"'])

/-- Matcher for the whole regex `"key"\s*:\s*""` anchored at the head of the
string; returns the remainder after the match. -/
def matchKeyEmpty (k : List Char) (s : List Char) : Option (List Char) :=
  matchLitThen (keyPattern k) s

/-- The replacement text `"key":null`. -/
def replEmpty (k : List Char) : List Char :=
  '"' :: (k ++ '"' :: ':' :: ['n', 'u', 'l', 'l'])

theorem matchQuote2_length {s r : List Char} (h : matchQuote2 s = some r) :
    r.length < s.length := by
  match s with
  | [] => cases h
  | x :: s' =>
    simp only [matchQuote2] at h
    split_ifs at h
    · cases h
      simp

theorem matchQuote2_suffix {s r : List Char} (h : matchQuote2 s = some r) :
    r <:+ s := by
  match s with
  | [] => cases h
  | x :: s' =>
    simp only [matchQuote2] at h
    split_ifs at h
    · cases h
      exact List.suffix_cons _ _

theorem matchQuoteWs_length {s r : List Char} (h : matchQuoteWs s = some r) :
    r.length < s.length := by
  induction s with
  | nil => cases h
  | cons x s' ih =>
    unfold matchQuoteWs at h
    split_ifs at h
    · exact Nat.lt_trans (ih h) (by simp)
    · exact Nat.lt_trans (matchQuote2_length h) (by simp)

theorem matchQuoteWs_suffix {s r : List Char} (h : matchQuoteWs s = some r) :
    r <:+ s := by
  induction s with
  | nil => cases h
  | cons x s' ih =>
    unfold matchQuoteWs at h
    split_ifs at h
    · exact (ih h).trans (List.suffix_cons x s')
    · exact (matchQuote2_suffix h).trans (List.suffix_cons x s')

theorem matchColonWs_length {s r : List Char} (h : matchColonWs s = some r) :
    r.length < s.length := by
  induction s with
  | nil => cases h
  | cons x s' ih =>
    unfold matchColonWs at h
    split_ifs at h
    · exact Nat.lt_trans (ih h) (by simp)
    · exact Nat.lt_trans (matchQuoteWs_length h) (by simp)

theorem matchColonWs_suffix {s r : List Char} (h : matchColonWs s = some r) :
    r <:+ s := by
  induction s with
  | nil => cases h
  | cons x s' ih =>
    unfold matchColonWs at h
    split_ifs at h
    · exact (ih h).trans (List.suffix_cons x s')
    · exact (matchQuoteWs_suffix h).trans (List.suffix_cons x s')

theorem matchLitThen_length {L s r : List Char} (h : matchLitThen L s = some r) :
    r.length < s.length := by
  induction L generalizing s with
  | nil => exact matchColonWs_length h
  | cons c L' ih =>
    match s with
    | [] => cases h
    | x :: s' =>
      unfold matchLitThen at h
      split_ifs at h
      · exact Nat.lt_trans (ih h) (by simp)

theorem matchLitThen_suffix {L s r : List Char} (h : matchLitThen L s = some r) :
    r <:+ s := by
  induction L generalizing s with
  | nil => exact matchColonWs_suffix h
  | cons c L' ih =>
    match s with
    | [] => cases h
    | x :: s' =>
      unfold matchLitThen at h
      split_ifs at h
      · exact (ih h).trans (List.suffix_cons x s')

theorem matchKeyEmpty_length {k s r : List Char} (h : matchKeyEmpty k s = some r) :
    r.length < s.length := matchLitThen_length h

theorem matchKeyEmpty_suffix {k s r : List Char} (h : matchKeyEmpty k s = some r) :
    r <:+ s := matchLitThen_suffix h

/-- The scanner of one `pattern.ReplaceAllString(s, "key":null)` pass: at each
position, either the pattern matches (emit the replacement, continue after the
match) or the head character is copied.  The fuel — instantiated with the
string length — only makes the recursion structural. -/
def repKeyFuel (k : List Char) : Nat → List Char → List Char
  | 0, s => s
  | _ + 1, [] => []
  | n + 1, c :: rest =>
    match matchKeyEmpty k (c :: rest) with
    | some rest' => replEmpty k ++ repKeyFuel k n rest'
    | none => c :: repKeyFuel k n rest

/-- One global replace pass for one numeric key. -/
def repKey (k : List Char) (s : List Char) : List Char := repKeyFuel k s.length s

theorem repKeyFuel_congr (k : List Char) :
    ∀ n m s, s.length ≤ n → s.length ≤ m → repKeyFuel k n s = repKeyFuel k m s := by
  intro n
  induction n with
  | zero =>
    intro m s hn _
    have : s = [] := List.length_eq_zero.mp (Nat.le_zero.mp hn)
    subst this
    cases m <;> rfl
  | succ n ih =>
    intro m s hn hm
    match s with
    | [] => cases m <;> rfl
    | c :: rest =>
      match m with
      | 0 => exact absurd hm (by simp)
      | m' + 1 =>
        simp only [repKeyFuel]
        cases hmatch : matchKeyEmpty k (c :: rest) with
        | some rest' =>
          have hlen := matchKeyEmpty_length hmatch
          simp only [List.length_cons] at hlen hn hm
          show replEmpty k ++ repKeyFuel k n rest' = replEmpty k ++ repKeyFuel k m' rest'
          rw [ih m' rest' (by omega) (by omega)]
        | none =>
          simp only [List.length_cons] at hn hm
          show c :: repKeyFuel k n rest = c :: repKeyFuel k m' rest
          rw [ih m' rest (by omega) (by omega)]

theorem repKey_nil (k : List Char) : repKey k [] = [] := rfl

theorem repKey_cons (k : List Char) (c : Char) (rest : List Char) :
    repKey k (c :: rest) =
      match matchKeyEmpty k (c :: rest) with
      | some rest' => replEmpty k ++ repKey k rest'
      | none => c :: repKey k rest := by
  show repKeyFuel k (rest.length + 1) (c :: rest) = _
  simp only [repKeyFuel]
  cases hmatch : matchKeyEmpty k (c :: rest) with
  | some rest' =>
    have hlen := matchKeyEmpty_length hmatch
    simp only [List.length_cons] at hlen
    show replEmpty k ++ repKeyFuel k rest.length rest' = replEmpty k ++ repKey k rest'
    rw [repKeyFuel_congr k rest.length rest'.length rest' (by omega) (le_refl _)]
    rfl
  | none => rfl

/-- The nine numeric keys, in the order the Go function applies them. -/
def numericKeys : List (List Char) :=
  ["leverage".toList, "position_size_usd".toList, "stop_loss".toList,
   "take_profit".toList, "confidence".toList, "risk_usd".toList,
   "new_stop_loss".toList, "new_take_profit".toList, "close_percentage".toList]

/-- `fixEmptyStringFields`: one global replace pass per numeric key, in
order. -/
def fixEmptyStringFields (s : List Char) : List Char :=
  numericKeys.foldl (fun acc k => repKey k acc) s

/-- Maximal run of `\d` digits at the head (`spanDigits s = (run, rest)`). -/
def spanDigits : List Char → List Char × List Char
  | [] => ([], [])
  | c :: s =>
    if c.isDigit then
      let p := spanDigits s
      (c :: p.1, p.2)
    else ([], c :: s)

/-- Matcher for `(\d+),(\d{3})` anchored at the head; on success returns the
replacement `$1$2` (the digits with the comma removed) and the remainder. -/
def matchTS (s : List Char) : Option (List Char × List Char) :=
  match spanDigits s with
  | (ds, ',' :: d1 :: d2 :: d3 :: rest') =>
    if !ds.isEmpty && d1.isDigit && d2.isDigit && d3.isDigit then
      some (ds ++ [d1, d2, d3], rest')
    else none
  | _ => none

theorem spanDigits_append (s : List Char) :
    (spanDigits s).1 ++ (spanDigits s).2 = s := by
  induction s with
  | nil => rfl
  | cons c s' ih =>
    unfold spanDigits
    by_cases h : c.isDigit <;> simp [h, ih]

theorem spanDigits_digits (s : List Char) :
    ∀ c ∈ (spanDigits s).1, c.isDigit = true := by
  induction s with
  | nil => intro c hc; cases hc
  | cons x s' ih =>
    unfold spanDigits
    by_cases h : x.isDigit
    · simp only [h, if_pos]
      intro c hc
      rcases List.mem_cons.mp hc with hc | hc
      · exact hc ▸ h
      · exact ih c hc
    · simp [h]

theorem matchTS_some {s : List Char} {emit rest' : List Char}
    (h : matchTS s = some (emit, rest')) :
    emit ≠ [] ∧ (∀ c ∈ emit, c.isDigit = true) ∧
      emit.length + 1 + rest'.length = s.length ∧ rest' <:+ s ∧
      ∀ c ∈ emit, c ∈ s := by
  unfold matchTS at h
  split at h
  · rename_i ds d1 d2 d3 r heq
    split_ifs at h with hd
    injection h with h1
    have he : ds ++ [d1, d2, d3] = emit := congrArg Prod.fst h1
    have hr : r = rest' := congrArg Prod.snd h1
    subst he
    subst hr
    have hds := spanDigits_digits s
    have happ := spanDigits_append s
    rw [heq] at hds happ
    simp only [Bool.and_eq_true, Bool.not_eq_true', List.isEmpty_eq_false] at hd
    obtain ⟨⟨⟨hne, hd1⟩, hd2⟩, hd3⟩ := hd
    refine ⟨by simp, ?_, ?_, ?_, ?_⟩
    · intro c hc
      rcases List.mem_append.mp hc with hc | hc
      · exact hds c hc
      · rcases List.mem_cons.mp hc with hc | hc
        · exact hc ▸ hd1
        rcases List.mem_cons.mp hc with hc | hc
        · exact hc ▸ hd2
        rcases List.mem_cons.mp hc with hc | hc
        · exact hc ▸ hd3
        · cases hc
    · rw [← happ]
      simp only [List.length_append, List.length_cons]
      simp
      omega
    · rw [← happ]
      refine ⟨ds ++ [',', d1, d2, d3], ?_⟩
      simp
    · intro c hc
      rw [← happ]
      rcases List.mem_append.mp hc with hc | hc
      · exact List.mem_append.mpr (Or.inl hc)
      · refine List.mem_append.mpr (Or.inr ?_)
        rcases List.mem_cons.mp hc with hc | hc
        · rw [hc]; simp
        rcases List.mem_cons.mp hc with hc | hc
        · rw [hc]; simp
        rcases List.mem_cons.mp hc with hc | hc
        · rw [hc]; simp
        · cases hc
  · cases h

/-- One `reThousand.ReplaceAllString(s, "$1$2")` pass. -/
def onePassTSFuel : Nat → List Char → List Char
  | 0, s => s
  | _ + 1, [] => []
  | n + 1, c :: rest =>
    match matchTS (c :: rest) with
    | some (emit, rest') => emit ++ onePassTSFuel n rest'
    | none => c :: onePassTSFuel n rest

def onePassTS (s : List Char) : List Char := onePassTSFuel s.length s

theorem onePassTSFuel_congr :
    ∀ n m s, s.length ≤ n → s.length ≤ m → onePassTSFuel n s = onePassTSFuel m s := by
  intro n
  induction n with
  | zero =>
    intro m s hn _
    have : s = [] := List.length_eq_zero.mp (Nat.le_zero.mp hn)
    subst this
    cases m <;> rfl
  | succ n ih =>
    intro m s hn hm
    match s with
    | [] => cases m <;> rfl
    | c :: rest =>
      match m with
      | 0 => exact absurd hm (by simp)
      | m' + 1 =>
        simp only [onePassTSFuel]
        cases hmatch : matchTS (c :: rest) with
        | some p =>
          obtain ⟨emit, rest'⟩ := p
          have hlen := (matchTS_some hmatch).2.2.1
          simp only [List.length_cons] at hlen hn hm
          show emit ++ onePassTSFuel n rest' = emit ++ onePassTSFuel m' rest'
          rw [ih m' rest' (by omega) (by omega)]
        | none =>
          simp only [List.length_cons] at hn hm
          show c :: onePassTSFuel n rest = c :: onePassTSFuel m' rest
          rw [ih m' rest (by omega) (by omega)]

theorem onePassTS_nil : onePassTS [] = [] := rfl

theorem onePassTS_cons (c : Char) (rest : List Char) :
    onePassTS (c :: rest) =
      match matchTS (c :: rest) with
      | some (emit, rest') => emit ++ onePassTS rest'
      | none => c :: onePassTS rest := by
  show onePassTSFuel (rest.length + 1) (c :: rest) = _
  simp only [onePassTSFuel]
  cases hmatch : matchTS (c :: rest) with
  | some p =>
    obtain ⟨emit, rest'⟩ := p
    have hlen := (matchTS_some hmatch).2.2.1
    simp only [List.length_cons] at hlen
    show emit ++ onePassTSFuel rest.length rest' = emit ++ onePassTS rest'
    rw [onePassTSFuel_congr rest.length rest'.length rest' (by omega) (le_refl _)]
    rfl
  | none => rfl

theorem onePassTS_length_le_aux :
    ∀ n s, s.length ≤ n → (onePassTS s).length ≤ s.length := by
  intro n
  induction n with
  | zero =>
    intro s hn
    have : s = [] := List.length_eq_zero.mp (Nat.le_zero.mp hn)
    subst this
    simp [onePassTS_nil]
  | succ n ih =>
    intro s hn
    match s with
    | [] => simp [onePassTS_nil]
    | c :: rest =>
      rw [onePassTS_cons]
      cases hmatch : matchTS (c :: rest) with
      | some p =>
        obtain ⟨emit, rest'⟩ := p
        have hm := (matchTS_some hmatch).2.2.1
        simp only [List.length_cons] at hm hn
        have hrec := ih rest' (by omega)
        simp only [List.length_append, List.length_cons]
        omega
      | none =>
        simp only [List.length_cons] at hn
        have hrec := ih rest (by omega)
        simp only [List.length_cons]
        omega

theorem onePassTS_length_le (s : List Char) : (onePassTS s).length ≤ s.length :=
  onePassTS_length_le_aux s.length s (le_refl _)

/-- Either a pass is the identity or it strictly shortens the string (each
match deletes one comma). -/
theorem onePassTS_eq_or_lt_aux :
    ∀ n s, s.length ≤ n → onePassTS s = s ∨ (onePassTS s).length < s.length := by
  intro n
  induction n with
  | zero =>
    intro s hn
    have : s = [] := List.length_eq_zero.mp (Nat.le_zero.mp hn)
    subst this
    left; rfl
  | succ n ih =>
    intro s hn
    match s with
    | [] => left; rfl
    | c :: rest =>
      rw [onePassTS_cons]
      cases hmatch : matchTS (c :: rest) with
      | some p =>
        obtain ⟨emit, rest'⟩ := p
        right
        have hm := (matchTS_some hmatch).2.2.1
        have hle := onePassTS_length_le rest'
        simp only [List.length_cons] at hm
        simp only [List.length_append, List.length_cons]
        omega
      | none =>
        simp only [List.length_cons] at hn
        rcases ih rest (by omega) with heq | hlt
        · left; rw [heq]
        · right; simp only [List.length_cons]; omega

theorem onePassTS_eq_or_lt (s : List Char) :
    onePassTS s = s ∨ (onePassTS s).length < s.length :=
  onePassTS_eq_or_lt_aux s.length s (le_refl _)

/-- The `for` loop of `fixThousandSeparators`: replace until a pass changes
nothing.  The Go loop is `for { if new == s break }`; fuel `s.length` is
enough because every productive pass strictly shortens the string. -/
def fixThousandFuel : Nat → List Char → List Char
  | 0, s => s
  | n + 1, s =>
    let t := onePassTS s
    if t = s then s else fixThousandFuel n t

def fixThousandSeparators (s : List Char) : List Char := fixThousandFuel s.length s

theorem fixThousandFuel_fix :
    ∀ n s, s.length ≤ n → onePassTS (fixThousandFuel n s) = fixThousandFuel n s := by
  intro n
  induction n with
  | zero =>
    intro s hn
    have : s = [] := List.length_eq_zero.mp (Nat.le_zero.mp hn)
    subst this
    rfl
  | succ n ih =>
    intro s hn
    simp only [fixThousandFuel]
    by_cases ht : onePassTS s = s
    · rw [if_pos ht]
      exact ht
    · rw [if_neg ht]
      rcases onePassTS_eq_or_lt s with heq | hlt
      · exact absurd heq ht
      · exact ih (onePassTS s) (by omega)

theorem fixThousandSeparators_fix (s : List Char) :
    onePassTS (fixThousandSeparators s) = fixThousandSeparators s :=
  fixThousandFuel_fix s.length s (le_refl _)

theorem fixThousandFuel_of_fix {s : List Char} (h : onePassTS s = s) :
    ∀ n, fixThousandFuel n s = s := by
  intro n
  cases n with
  | zero => rfl
  | succ n => simp only [fixThousandFuel, h, if_pos]

theorem fixThousandSeparators_idem (s : List Char) :
    fixThousandSeparators (fixThousandSeparators s) = fixThousandSeparators s :=
  fixThousandFuel_of_fix (fixThousandSeparators_fix s) _

/-- The repair pipeline of `extractDecisions` (983–1000): invisible-rune
removal, quote/punctuation normalisation, empty-numeric-field nulling,
thousand-separator removal.  (`strings.TrimSpace` sits between steps 1 and 2
in the Go code; it is irrelevant to the repair-idempotency claim, which is
about the repair functions, and is modelled separately for C7.) -/
def repair (s : List Char) : List Char :=
  fixThousandSeparators (fixEmptyStringFields (fixMissingQuotes (removeInvisibleRunes s)))

/-! ### Idempotency of the repair pipeline

The proof tracks which characters each stage can output and shows every later
(and repeated) stage treats that output as inert. -/

/-- Characters that may appear in a numeric key name. -/
def keyAlphabet : List Char := "abcdefghijklmnopqrstuvwxyz_".toList

/-- A well-behaved key: nonempty, drawn from the key alphabet. -/
def PlainKey (k : List Char) : Prop := k ≠ [] ∧ ∀ c ∈ k, c ∈ keyAlphabet

/-- `leadsB a b`: `a` is a leading segment of `b`. -/
def leadsB : List Char → List Char → Bool
  | [], _ => true
  | _ :: _, [] => false
  | a :: as, b :: bs => a == b && leadsB as bs

/-- Two keys are compatible when equal or neither leads the other, so one
key's match can never start inside another key's literal. -/
def KeysCompat (k1 k2 : List Char) : Prop :=
  k1 = k2 ∨ (leadsB k1 k2 = false ∧ leadsB k2 k1 = false)

theorem numericKeys_plain : ∀ k ∈ numericKeys, PlainKey k := by
  unfold PlainKey
  decide

theorem numericKeys_compat :
    ∀ k1 ∈ numericKeys, ∀ k2 ∈ numericKeys, KeysCompat k1 k2 := by
  unfold KeysCompat
  decide

theorem keyAlphabet_facts :
    ∀ c ∈ keyAlphabet, c ≠ '"' ∧ c ≠ ':' ∧ goWhitespace c = false ∧
      c.isDigit = false ∧ isInvisibleRune c = false ∧ quoteMap c = c := by decide

theorem digit_facts {c : Char} (h : c.isDigit = true) :
    c ≠ '"' ∧ c ≠ ':' ∧ goWhitespace c = false ∧ c ∉ keyAlphabet := by
  have hne : ∀ x : Char, x.isDigit = false → c ≠ x := by
    intro x hx he
    subst he
    rw [h] at hx
    cases hx
  refine ⟨hne '"' (by decide), hne ':' (by decide), ?_, ?_⟩
  · unfold goWhitespace
    simp [hne ' ' (by decide), hne '\t' (by decide), hne '\n' (by decide),
      hne '\x0c' (by decide), hne '\r' (by decide)]
  · intro hmem
    rw [(keyAlphabet_facts c hmem).2.2.2.1] at h
    cases h

theorem matchQuote2_head {x : Char} (h2 : ¬ x = '"') (s : List Char) :
    matchQuote2 (x :: s) = none := by
  simp [matchQuote2, h2]

theorem matchQuoteWs_head {x : Char} (h1 : goWhitespace x = false) (h2 : ¬ x = '"')
    (s : List Char) : matchQuoteWs (x :: s) = none := by
  simp [matchQuoteWs, h1, h2]

theorem matchColonWs_head {x : Char} (h1 : goWhitespace x = false) (h2 : ¬ x = ':')
    (s : List Char) : matchColonWs (x :: s) = none := by
  simp [matchColonWs, h1, h2]

theorem matchLitThen_cons_ne {c x : Char} (h : ¬ x = c) (L s : List Char) :
    matchLitThen (c :: L) (x :: s) = none := by
  simp [matchLitThen, h]

theorem matchLitThen_cons_eq (c : Char) (L s : List Char) :
    matchLitThen (c :: L) (c :: s) = matchLitThen L s := by
  simp [matchLitThen]

theorem matchKeyEmpty_head_ne {k : List Char} {x : Char} (hx : ¬ x = '"')
    (s : List Char) : matchKeyEmpty k (x :: s) = none := by
  unfold matchKeyEmpty keyPattern
  exact matchLitThen_cons_ne hx _ _

theorem matchLitThen_append_self (a : List Char) :
    ∀ P s, matchLitThen (a ++ P) (a ++ s) = matchLitThen P s := by
  induction a with
  | nil => intro P s; rfl
  | cons c a' ih =>
    intro P s
    simp only [List.cons_append]
    rw [matchLitThen_cons_eq]
    exact ih P s

theorem matchLitThen_diverge :
    ∀ (kp ks P S : List Char), leadsB kp ks = false → leadsB ks kp = false →
      matchLitThen (kp ++ P) (ks ++ S) = none := by
  intro kp
  induction kp with
  | nil => intro ks P S h1 _; cases h1
  | cons a as ih =>
    intro ks P S h1 h2
    match ks with
    | [] => cases h2
    | b :: bs =>
      simp only [List.cons_append]
      by_cases hab : b = a
      · subst hab
        rw [matchLitThen_cons_eq]
        refine ih bs P S ?_ ?_
        · simpa [leadsB] using h1
        · simpa [leadsB] using h2
      · exact matchLitThen_cons_ne hab _ _

theorem suffix_append_cases {α : Type} {t a b : List α} (h : t <:+ a ++ b) :
    t <:+ b ∨ ∃ d, d <:+ a ∧ d ≠ [] ∧ t = d ++ b := by
  induction a with
  | nil => left; simpa using h
  | cons x a' ih =>
    rcases List.suffix_cons_iff.mp h with heq | htail
    · right
      exact ⟨x :: a', List.suffix_refl _, by simp, by simpa using heq⟩
    · rcases ih htail with h1 | ⟨d, hd, hne, ht⟩
      · left; exact h1
      · right; exact ⟨d, hd.trans (List.suffix_cons x a'), hne, ht⟩

/-- The tail of the replacement after the key literal, `":null`. -/
def replTail : List Char := ['"', ':', 'n', 'u', 'l', 'l']

theorem replEmpty_eq (k : List Char) : replEmpty k = '"' :: (k ++ replTail) := rfl

/-- The pattern for any compatible plain key fails on
`"key":null` followed by anything. -/
theorem matchKeyEmpty_repl_full (kp ks : List Char) (hkp : PlainKey kp)
    (hks : PlainKey ks) (hc : KeysCompat kp ks) (Y : List Char) :
    matchKeyEmpty kp (replEmpty ks ++ Y) = none := by
  unfold matchKeyEmpty keyPattern
  rw [replEmpty_eq]
  simp only [List.cons_append, List.append_assoc]
  rw [matchLitThen_cons_eq]
  rcases hc with heq | ⟨h1, h2⟩
  · subst heq
    rw [matchLitThen_append_self kp ['"'] (replTail ++ Y)]
    rw [show replTail ++ Y = '"' :: (':' :: 'n' :: 'u' :: 'l' :: 'l' :: Y) from rfl]
    rw [show (['"'] : List Char) = '"' :: ([] : List Char) from rfl]
    rw [matchLitThen_cons_eq]
    show matchColonWs (':' :: 'n' :: 'u' :: 'l' :: 'l' :: Y) = none
    simp [matchColonWs, matchQuoteWs, goWhitespace]
  · exact matchLitThen_diverge kp ks _ _ h1 h2

/-- The pattern for a compatible plain key fails at every nonempty suffix of
the replacement text, whatever follows. -/
theorem matchKeyEmpty_repl_suffix (kp ks : List Char) (hkp : PlainKey kp)
    (hks : PlainKey ks) (hc : KeysCompat kp ks) :
    ∀ d, d <:+ replEmpty ks → d ≠ [] → ∀ Y, matchKeyEmpty kp (d ++ Y) = none := by
  intro d hd hne Y
  rw [replEmpty_eq] at hd
  rcases List.suffix_cons_iff.mp hd with hwhole | htail
  · rw [hwhole]
    rw [show ('"' :: (ks ++ replTail)) ++ Y = replEmpty ks ++ Y from by
      rw [replEmpty_eq]]
    exact matchKeyEmpty_repl_full kp ks hkp hks hc Y
  · rcases suffix_append_cases htail with h6 | ⟨e, he, hene, hde⟩
    · -- d is a suffix of the six-character tail `":null`
      rcases List.suffix_cons_iff.mp h6 with h | h6
      · -- d = `":null`
        subst h
        show matchKeyEmpty kp ('"' :: (':' :: 'n' :: 'u' :: 'l' :: 'l' :: Y)) = none
        unfold matchKeyEmpty keyPattern
        rw [matchLitThen_cons_eq]
        obtain ⟨c, kp', hkp'⟩ := List.exists_cons_of_ne_nil hkp.1
        subst hkp'
        have hcmem := hkp.2 c (List.mem_cons_self c kp')
        have hfacts := keyAlphabet_facts c hcmem
        simp only [List.cons_append]
        exact matchLitThen_cons_ne (fun h => hfacts.2.1 h.symm) _ _
      rcases List.suffix_cons_iff.mp h6 with h | h6
      · subst h
        exact matchKeyEmpty_head_ne (by decide) _
      rcases List.suffix_cons_iff.mp h6 with h | h6
      · subst h
        exact matchKeyEmpty_head_ne (by decide) _
      rcases List.suffix_cons_iff.mp h6 with h | h6
      · subst h
        exact matchKeyEmpty_head_ne (by decide) _
      rcases List.suffix_cons_iff.mp h6 with h | h6
      · subst h
        exact matchKeyEmpty_head_ne (by decide) _
      rcases List.suffix_cons_iff.mp h6 with h | h6
      · subst h
        exact matchKeyEmpty_head_ne (by decide) _
      · have : d = [] := List.suffix_nil.mp h6
        exact absurd this hne
    · -- d = e ++ replTail with e a nonempty suffix of the key: alphabet head
      obtain ⟨c, e', hce⟩ := List.exists_cons_of_ne_nil hene
      subst hce
      have hcmem : c ∈ ks := he.subset (List.mem_cons_self c e')
      have hfacts := keyAlphabet_facts c (hks.2 c hcmem)
      rw [hde]
      simp only [List.cons_append]
      exact matchKeyEmpty_head_ne hfacts.1 _

theorem matchColonWs_ws {x : Char} (h : goWhitespace x = true) (s : List Char) :
    matchColonWs (x :: s) = matchColonWs s := by
  simp [matchColonWs, h]

theorem matchColonWs_colon (s : List Char) :
    matchColonWs (':' :: s) = matchQuoteWs s := by
  simp [matchColonWs, goWhitespace]

theorem matchQuoteWs_ws {x : Char} (h : goWhitespace x = true) (s : List Char) :
    matchQuoteWs (x :: s) = matchQuoteWs s := by
  simp [matchQuoteWs, h]

theorem matchQuoteWs_quote (s : List Char) :
    matchQuoteWs ('"' :: s) = matchQuote2 s := by
  simp [matchQuoteWs, goWhitespace]

theorem matchQuote2_quote (s : List Char) : matchQuote2 ('"' :: s) = some s := by
  simp [matchQuote2]

theorem matchKeyEmpty_some_head {k s r : List Char} (h : matchKeyEmpty k s = some r) :
    ∃ s', s = '"' :: s' := by
  match s with
  | [] => cases h
  | x :: s' =>
    by_cases hx : x = '"'
    · exact ⟨s', by rw [hx]⟩
    · unfold matchKeyEmpty keyPattern at h
      rw [matchLitThen_cons_ne hx] at h
      cases h

theorem repKey_cons_some {k : List Char} {c : Char}
    {rest r : List Char} (h : matchKeyEmpty k (c :: rest) = some r) :
    repKey k (c :: rest) = replEmpty k ++ repKey k r := by
  rw [repKey_cons, h]

theorem repKey_cons_none {k : List Char} {c : Char} {rest : List Char}
    (h : matchKeyEmpty k (c :: rest) = none) :
    repKey k (c :: rest) = c :: repKey k rest := by
  rw [repKey_cons, h]

theorem onePassTS_cons_some {c : Char} {rest emit rest' : List Char}
    (h : matchTS (c :: rest) = some (emit, rest')) :
    onePassTS (c :: rest) = emit ++ onePassTS rest' := by
  rw [onePassTS_cons, h]

theorem onePassTS_cons_none {c : Char} {rest : List Char}
    (h : matchTS (c :: rest) = none) :
    onePassTS (c :: rest) = c :: onePassTS rest := by
  rw [onePassTS_cons, h]

/-- Elements of a suffix of the key pattern are the quote or key letters. -/
theorem keyPattern_suffix_mem {kp L : List Char} (hL : L <:+ keyPattern kp)
    {c : Char} (hc : c ∈ L) : c = '"' ∨ c ∈ kp := by
  have := hL.subset hc
  unfold keyPattern at this
  rcases List.mem_cons.mp this with h | h
  · left; exact h
  · rcases List.mem_append.mp h with h | h
    · right; exact h
    · left; simpa using h

/-- Core preservation: one replace pass for a compatible key `ks` preserves
failure of each stage of key `kp`'s pattern matcher. -/
theorem preserve_all (kp ks : List Char) (hkp : PlainKey kp) (hks : PlainKey ks)
    (hc : KeysCompat kp ks) :
    ∀ n s, s.length ≤ n →
      (matchColonWs s = none → matchColonWs (repKey ks s) = none) ∧
      (matchQuoteWs s = none → matchQuoteWs (repKey ks s) = none) ∧
      (matchQuote2 s = none → matchQuote2 (repKey ks s) = none) ∧
      (∀ L, L <:+ keyPattern kp → matchLitThen L s = none →
        matchLitThen L (repKey ks s) = none) := by
  intro n
  induction n with
  | zero =>
    intro s hn
    have : s = [] := List.length_eq_zero.mp (Nat.le_zero.mp hn)
    subst this
    rw [repKey_nil]
    exact ⟨fun h => h, fun h => h, fun h => h, fun L _ h => h⟩
  | succ n ih =>
    intro s hn
    match s with
    | [] =>
      rw [repKey_nil]
      exact ⟨fun h => h, fun h => h, fun h => h, fun L _ h => h⟩
    | c :: rest =>
      simp only [List.length_cons] at hn
      cases hmatch : matchKeyEmpty ks (c :: rest) with
      | some r =>
        rw [repKey_cons_some hmatch]
        obtain ⟨k0, ks', hks0⟩ := List.exists_cons_of_ne_nil hks.1
        have hk0 := keyAlphabet_facts k0 (hks.2 k0 (by rw [hks0]; exact List.mem_cons_self _ _))
        have hshape : replEmpty ks ++ repKey ks r =
            '"' :: (ks ++ (replTail ++ repKey ks r)) := by
          rw [replEmpty_eq]
          simp [List.append_assoc]
        refine ⟨?_, ?_, ?_, ?_⟩
        · intro _
          rw [hshape]
          exact matchColonWs_head (by decide) (by decide) _
        · intro _
          rw [hshape, matchQuoteWs_quote]
          rw [hks0]
          simp only [List.cons_append]
          exact matchQuote2_head hk0.1 _
        · intro h
          obtain ⟨s1, hs1⟩ := matchKeyEmpty_some_head hmatch
          rw [hs1] at h
          rw [matchQuote2_quote] at h
          cases h
        · intro L hL _
          rcases List.suffix_cons_iff.mp hL with hwhole | htail
          · rw [hwhole]
            exact matchKeyEmpty_repl_full kp ks hkp hks hc _
          · rcases suffix_append_cases htail with h1 | ⟨e, he, hene, hLe⟩
            · rcases List.suffix_cons_iff.mp h1 with h2 | h2
              · -- L = a single quote
                subst h2
                rw [hshape]
                rw [show (['"'] : List Char) = '"' :: ([] : List Char) from rfl]
                rw [matchLitThen_cons_eq]
                show matchColonWs (ks ++ (replTail ++ repKey ks r)) = none
                rw [hks0]
                simp only [List.cons_append]
                exact matchColonWs_head hk0.2.2.1 hk0.2.1 _
              · -- L is empty
                have hL0 : L = [] := List.suffix_nil.mp h2
                subst hL0
                rw [hshape]
                exact matchColonWs_head (by decide) (by decide) _
            · -- L = e ++ quote, e a nonempty suffix of the key kp
              obtain ⟨c0, e', hce⟩ := List.exists_cons_of_ne_nil hene
              have hc0 : c0 ∈ kp := he.subset (hce ▸ List.mem_cons_self c0 e')
              have hfc0 := keyAlphabet_facts c0 (hkp.2 c0 hc0)
              rw [hLe, hce, hshape]
              simp only [List.cons_append]
              exact matchLitThen_cons_ne (fun h => hfc0.1 h.symm) _ _
      | none =>
        rw [repKey_cons_none hmatch]
        have IH := ih rest (by omega)
        have h1 : matchColonWs (c :: rest) = none →
            matchColonWs (c :: repKey ks rest) = none := by
          intro h
          by_cases hw : goWhitespace c = true
          · rw [matchColonWs_ws hw] at h ⊢
            exact IH.1 h
          · by_cases hcol : c = ':'
            · subst hcol
              rw [matchColonWs_colon] at h ⊢
              exact IH.2.1 h
            · exact matchColonWs_head (Bool.not_eq_true _ ▸ hw) hcol _
        have h2 : matchQuoteWs (c :: rest) = none →
            matchQuoteWs (c :: repKey ks rest) = none := by
          intro h
          by_cases hw : goWhitespace c = true
          · rw [matchQuoteWs_ws hw] at h ⊢
            exact IH.2.1 h
          · by_cases hq : c = '"'
            · subst hq
              rw [matchQuoteWs_quote] at h ⊢
              exact IH.2.2.1 h
            · exact matchQuoteWs_head (Bool.not_eq_true _ ▸ hw) hq _
        have h3 : matchQuote2 (c :: rest) = none →
            matchQuote2 (c :: repKey ks rest) = none := by
          intro h
          by_cases hq : c = '"'
          · subst hq
            rw [matchQuote2_quote] at h
            cases h
          · exact matchQuote2_head hq _
        refine ⟨h1, h2, h3, ?_⟩
        intro L hL h
        match L with
        | [] => exact h1 h
        | c0 :: L' =>
          by_cases hcc : c = c0
          · subst hcc
            rw [matchLitThen_cons_eq] at h ⊢
            have hL' : L' <:+ keyPattern kp :=
              (List.suffix_cons c L').trans hL
            exact IH.2.2.2 L' hL' h
          · exact matchLitThen_cons_ne hcc _ _

/-- `Inert k s`: key `k`'s pattern matches nowhere in `s`, so a replace pass
for `k` leaves `s` unchanged. -/
def Inert (k s : List Char) : Prop := ∀ t, t <:+ s → matchKeyEmpty k t = none

theorem inert_nil (k : List Char) : Inert k [] := by
  intro t ht
  rw [List.suffix_nil.mp ht]
  rfl

theorem Inert.tail {k : List Char} {c : Char} {s : List Char}
    (h : Inert k (c :: s)) : Inert k s :=
  fun t ht => h t (ht.trans (List.suffix_cons c s))

theorem Inert.of_suffix {k s t : List Char} (h : Inert k s) (hts : t <:+ s) :
    Inert k t :=
  fun u hu => h u (hu.trans hts)

/-- A replace pass for a compatible key `ks` preserves inertness of `kp`. -/
theorem inert_preserved (kp ks : List Char) (hkp : PlainKey kp) (hks : PlainKey ks)
    (hc : KeysCompat kp ks) :
    ∀ n s, s.length ≤ n → Inert kp s → Inert kp (repKey ks s) := by
  intro n
  induction n with
  | zero =>
    intro s hn _
    have : s = [] := List.length_eq_zero.mp (Nat.le_zero.mp hn)
    subst this
    rw [repKey_nil]
    exact inert_nil kp
  | succ n ih =>
    intro s hn hin
    match s with
    | [] => rw [repKey_nil]; exact inert_nil kp
    | c :: rest =>
      simp only [List.length_cons] at hn
      cases hmatch : matchKeyEmpty ks (c :: rest) with
      | some r =>
        rw [repKey_cons_some hmatch]
        intro t ht
        rcases suffix_append_cases ht with h1 | ⟨d, hd, hne, htd⟩
        · have hr : r <:+ c :: rest := matchKeyEmpty_suffix hmatch
          have hlen := matchKeyEmpty_length hmatch
          simp only [List.length_cons] at hlen
          exact ih r (by omega) (hin.of_suffix hr) t h1
        · rw [htd]
          exact matchKeyEmpty_repl_suffix kp ks hkp hks hc d hd hne _
      | none =>
        rw [repKey_cons_none hmatch]
        intro t ht
        rcases List.suffix_cons_iff.mp ht with hwhole | htail
        · rw [hwhole, ← repKey_cons_none hmatch]
          exact (preserve_all kp ks hkp hks hc (rest.length + 1) (c :: rest)
            (by simp)).2.2.2 (keyPattern kp) (List.suffix_refl _)
            (hin _ (List.suffix_refl _))
        · exact ih rest (by omega) hin.tail t htail

/-- A replace pass for `k` leaves its own pattern with no occurrence. -/
theorem inert_self (k : List Char) (hk : PlainKey k) :
    ∀ n s, s.length ≤ n → Inert k (repKey k s) := by
  intro n
  induction n with
  | zero =>
    intro s hn
    have : s = [] := List.length_eq_zero.mp (Nat.le_zero.mp hn)
    subst this
    rw [repKey_nil]
    exact inert_nil k
  | succ n ih =>
    intro s hn
    match s with
    | [] => rw [repKey_nil]; exact inert_nil k
    | c :: rest =>
      simp only [List.length_cons] at hn
      cases hmatch : matchKeyEmpty k (c :: rest) with
      | some r =>
        rw [repKey_cons_some hmatch]
        intro t ht
        rcases suffix_append_cases ht with h1 | ⟨d, hd, hne, htd⟩
        · have hlen := matchKeyEmpty_length hmatch
          simp only [List.length_cons] at hlen
          exact ih r (by omega) t h1
        · rw [htd]
          exact matchKeyEmpty_repl_suffix k k hk hk (Or.inl rfl) d hd hne _
      | none =>
        rw [repKey_cons_none hmatch]
        intro t ht
        rcases List.suffix_cons_iff.mp ht with hwhole | htail
        · rw [hwhole, ← repKey_cons_none hmatch]
          exact (preserve_all k k hk hk (Or.inl rfl) (rest.length + 1) (c :: rest)
            (by simp)).2.2.2 (keyPattern k) (List.suffix_refl _) hmatch
        · exact ih rest (by omega) t htail

/-- On an inert string a replace pass is the identity. -/
theorem repKey_of_inert {k : List Char} :
    ∀ {s : List Char}, Inert k s → repKey k s = s := by
  intro s
  induction s with
  | nil => intro _; rfl
  | cons c rest ih =>
    intro h
    rw [repKey_cons_none (h _ (List.suffix_refl _))]
    rw [ih h.tail]

/-- The fold underlying `fixEmptyStringFields`. -/
def foldRep (L : List (List Char)) (s : List Char) : List Char :=
  L.foldl (fun acc k => repKey k acc) s

theorem fixEmptyStringFields_eq (s : List Char) :
    fixEmptyStringFields s = foldRep numericKeys s := rfl

theorem foldRep_cons (k : List Char) (L : List (List Char)) (s : List Char) :
    foldRep (k :: L) s = foldRep L (repKey k s) := rfl

theorem foldRep_inert_mono (kp : List Char) (hkp : PlainKey kp) :
    ∀ L s, (∀ k ∈ L, PlainKey k ∧ KeysCompat kp k) → Inert kp s →
      Inert kp (foldRep L s) := by
  intro L
  induction L with
  | nil => intro s _ h; exact h
  | cons k0 L' ih =>
    intro s hL h
    rw [foldRep_cons]
    have hk0 := hL k0 (List.mem_cons_self _ _)
    exact ih (repKey k0 s)
      (fun k hk => hL k (List.mem_cons_of_mem _ hk))
      (inert_preserved kp k0 hkp hk0.1 hk0.2 s.length s (le_refl _) h)

theorem foldRep_inert_mem :
    ∀ L s k, k ∈ L → (∀ k' ∈ L, PlainKey k') →
      (∀ k1 ∈ L, ∀ k2 ∈ L, KeysCompat k1 k2) → Inert k (foldRep L s) := by
  intro L
  induction L with
  | nil => intro s k hk; cases hk
  | cons k0 L' ih =>
    intro s k hk hplain hcompat
    rw [foldRep_cons]
    rcases List.mem_cons.mp hk with heq | hmem
    · subst heq
      exact foldRep_inert_mono k (hplain k (List.mem_cons_self _ _)) L' (repKey k s)
        (fun k' hk' => ⟨hplain k' (List.mem_cons_of_mem _ hk'),
          hcompat k (List.mem_cons_self _ _) k' (List.mem_cons_of_mem _ hk')⟩)
        (inert_self k (hplain k (List.mem_cons_self _ _)) s.length s (le_refl _))
    · exact ih (repKey k0 s) k hmem
        (fun k' hk' => hplain k' (List.mem_cons_of_mem _ hk'))
        (fun k1 h1 k2 h2 => hcompat k1 (List.mem_cons_of_mem _ h1) k2
          (List.mem_cons_of_mem _ h2))

theorem foldRep_of_inert :
    ∀ L s, (∀ k ∈ L, Inert k s) → foldRep L s = s := by
  intro L
  induction L with
  | nil => intro s _; rfl
  | cons k0 L' ih =>
    intro s h
    rw [foldRep_cons, repKey_of_inert (h k0 (List.mem_cons_self _ _))]
    exact ih s (fun k hk => h k (List.mem_cons_of_mem _ hk))

/-- A thousand-separator pass also preserves failure of every stage of a
plain key's pattern: the emitted text is all digits. -/
theorem preserve_all_TS (kp : List Char) (hkp : PlainKey kp) :
    ∀ n s, s.length ≤ n →
      (matchColonWs s = none → matchColonWs (onePassTS s) = none) ∧
      (matchQuoteWs s = none → matchQuoteWs (onePassTS s) = none) ∧
      (matchQuote2 s = none → matchQuote2 (onePassTS s) = none) ∧
      (∀ L, L <:+ keyPattern kp → matchLitThen L s = none →
        matchLitThen L (onePassTS s) = none) := by
  intro n
  induction n with
  | zero =>
    intro s hn
    have : s = [] := List.length_eq_zero.mp (Nat.le_zero.mp hn)
    subst this
    rw [onePassTS_nil]
    exact ⟨fun h => h, fun h => h, fun h => h, fun L _ h => h⟩
  | succ n ih =>
    intro s hn
    match s with
    | [] =>
      rw [onePassTS_nil]
      exact ⟨fun h => h, fun h => h, fun h => h, fun L _ h => h⟩
    | c :: rest =>
      simp only [List.length_cons] at hn
      cases hmatch : matchTS (c :: rest) with
      | some p =>
        obtain ⟨emit, rest'⟩ := p
        rw [onePassTS_cons_some hmatch]
        have hts := matchTS_some hmatch
        obtain ⟨e0, emit', he⟩ := List.exists_cons_of_ne_nil hts.1
        have he0 : e0.isDigit = true := hts.2.1 e0 (he ▸ List.mem_cons_self _ _)
        have hdf := digit_facts he0
        rw [he]
        simp only [List.cons_append]
        refine ⟨?_, ?_, ?_, ?_⟩
        · intro _
          exact matchColonWs_head hdf.2.2.1 hdf.2.1 _
        · intro _
          exact matchQuoteWs_head hdf.2.2.1 hdf.1 _
        · intro _
          exact matchQuote2_head hdf.1 _
        · intro L hL _
          match L with
          | [] => exact matchColonWs_head hdf.2.2.1 hdf.2.1 _
          | c0 :: L' =>
            have hc0 := keyPattern_suffix_mem hL (List.mem_cons_self c0 L')
            refine matchLitThen_cons_ne ?_ _ _
            intro hec
            rcases hc0 with h | h
            · rw [h] at hec
              exact hdf.1 hec
            · rw [← hec] at h
              rw [(keyAlphabet_facts e0 (hkp.2 e0 h)).2.2.2.1] at he0
              cases he0
      | none =>
        rw [onePassTS_cons_none hmatch]
        have IH := ih rest (by omega)
        have h1 : matchColonWs (c :: rest) = none →
            matchColonWs (c :: onePassTS rest) = none := by
          intro h
          by_cases hw : goWhitespace c = true
          · rw [matchColonWs_ws hw] at h ⊢
            exact IH.1 h
          · by_cases hcol : c = ':'
            · subst hcol
              rw [matchColonWs_colon] at h ⊢
              exact IH.2.1 h
            · exact matchColonWs_head (Bool.not_eq_true _ ▸ hw) hcol _
        have h2 : matchQuoteWs (c :: rest) = none →
            matchQuoteWs (c :: onePassTS rest) = none := by
          intro h
          by_cases hw : goWhitespace c = true
          · rw [matchQuoteWs_ws hw] at h ⊢
            exact IH.2.1 h
          · by_cases hq : c = '"'
            · subst hq
              rw [matchQuoteWs_quote] at h ⊢
              exact IH.2.2.1 h
            · exact matchQuoteWs_head (Bool.not_eq_true _ ▸ hw) hq _
        have h3 : matchQuote2 (c :: rest) = none →
            matchQuote2 (c :: onePassTS rest) = none := by
          intro h
          by_cases hq : c = '"'
          · subst hq
            rw [matchQuote2_quote] at h
            cases h
          · exact matchQuote2_head hq _
        refine ⟨h1, h2, h3, ?_⟩
        intro L hL h
        match L with
        | [] => exact h1 h
        | c0 :: L' =>
          by_cases hcc : c = c0
          · subst hcc
            rw [matchLitThen_cons_eq] at h ⊢
            exact IH.2.2.2 L' ((List.suffix_cons c L').trans hL) h
          · exact matchLitThen_cons_ne hcc _ _

theorem inert_TS_preserved (kp : List Char) (hkp : PlainKey kp) :
    ∀ n s, s.length ≤ n → Inert kp s → Inert kp (onePassTS s) := by
  intro n
  induction n with
  | zero =>
    intro s hn _
    have : s = [] := List.length_eq_zero.mp (Nat.le_zero.mp hn)
    subst this
    rw [onePassTS_nil]
    exact inert_nil kp
  | succ n ih =>
    intro s hn hin
    match s with
    | [] => rw [onePassTS_nil]; exact inert_nil kp
    | c :: rest =>
      simp only [List.length_cons] at hn
      cases hmatch : matchTS (c :: rest) with
      | some p =>
        obtain ⟨emit, rest'⟩ := p
        rw [onePassTS_cons_some hmatch]
        have hts := matchTS_some hmatch
        intro t ht
        rcases suffix_append_cases ht with h1 | ⟨d, hd, hne, htd⟩
        · have hlen := hts.2.2.1
          simp only [List.length_cons] at hlen
          exact ih rest' (by omega) (hin.of_suffix hts.2.2.2.1) t h1
        · obtain ⟨c0, d', hcd⟩ := List.exists_cons_of_ne_nil hne
          have hc0 : c0 ∈ emit := hd.subset (hcd ▸ List.mem_cons_self c0 d')
          have hdig := hts.2.1 c0 hc0
          rw [htd, hcd]
          simp only [List.cons_append]
          exact matchKeyEmpty_head_ne (digit_facts hdig).1 _
      | none =>
        rw [onePassTS_cons_none hmatch]
        intro t ht
        rcases List.suffix_cons_iff.mp ht with hwhole | htail
        · rw [hwhole, ← onePassTS_cons_none hmatch]
          exact (preserve_all_TS kp hkp (rest.length + 1) (c :: rest)
            (by simp)).2.2.2 (keyPattern kp) (List.suffix_refl _)
            (hin _ (List.suffix_refl _))
        · exact ih rest (by omega) hin.tail t htail

theorem inert_fixThousandFuel (kp : List Char) (hkp : PlainKey kp) :
    ∀ m s, Inert kp s → Inert kp (fixThousandFuel m s) := by
  intro m
  induction m with
  | zero => intro s h; exact h
  | succ m ih =>
    intro s h
    simp only [fixThousandFuel]
    by_cases ht : onePassTS s = s
    · rw [if_pos ht]; exact h
    · rw [if_neg ht]
      exact ih (onePassTS s) (inert_TS_preserved kp hkp s.length s (le_refl _) h)

theorem inert_fixThousandSeparators (kp : List Char) (hkp : PlainKey kp)
    {s : List Char} (h : Inert kp s) : Inert kp (fixThousandSeparators s) :=
  inert_fixThousandFuel kp hkp s.length s h

/-- The possible non-identity outputs of the `fixMissingQuotes` character
map. -/
def qTargets : List Char := ['"', '\'', '[', ']', '{', '}', ':', ',', ' ']

theorem quoteMap_target (c : Char) : quoteMap c = c ∨ quoteMap c ∈ qTargets := by
  unfold quoteMap
  split_ifs <;> first
    | (right; decide)
    | (left; rfl)

theorem qTargets_facts :
    ∀ c ∈ qTargets, quoteMap c = c ∧ isInvisibleRune c = false := by decide

theorem replEmpty_chars (k : List Char) (hk : PlainKey k) :
    ∀ c ∈ replEmpty k, quoteMap c = c ∧ isInvisibleRune c = false := by
  intro c hc
  rw [replEmpty_eq] at hc
  rcases List.mem_cons.mp hc with h | h
  · rw [h]; exact ⟨by decide, by decide⟩
  · rcases List.mem_append.mp h with h | h
    · have := keyAlphabet_facts c (hk.2 c h)
      exact ⟨this.2.2.2.2.2, this.2.2.2.2.1⟩
    · have hrt : ∀ x ∈ replTail, quoteMap x = x ∧ isInvisibleRune x = false := by
        decide
      exact hrt c h

theorem mem_repKey (k : List Char) :
    ∀ n s c, s.length ≤ n → c ∈ repKey k s → c ∈ s ∨ c ∈ replEmpty k := by
  intro n
  induction n with
  | zero =>
    intro s c hn hc
    have : s = [] := List.length_eq_zero.mp (Nat.le_zero.mp hn)
    subst this
    rw [repKey_nil] at hc
    cases hc
  | succ n ih =>
    intro s c hn hc
    match s with
    | [] => rw [repKey_nil] at hc; cases hc
    | c0 :: rest =>
      simp only [List.length_cons] at hn
      cases hmatch : matchKeyEmpty k (c0 :: rest) with
      | some r =>
        rw [repKey_cons_some hmatch] at hc
        rcases List.mem_append.mp hc with h | h
        · right; exact h
        · have hlen := matchKeyEmpty_length hmatch
          simp only [List.length_cons] at hlen
          rcases ih r c (by omega) h with h1 | h1
          · left; exact (matchKeyEmpty_suffix hmatch).subset h1
          · right; exact h1
      | none =>
        rw [repKey_cons_none hmatch] at hc
        rcases List.mem_cons.mp hc with h | h
        · left; rw [h]; exact List.mem_cons_self _ _
        · rcases ih rest c (by omega) h with h1 | h1
          · left; exact List.mem_cons_of_mem _ h1
          · right; exact h1

theorem mem_foldRep :
    ∀ L s c, c ∈ foldRep L s → c ∈ s ∨ ∃ k ∈ L, c ∈ replEmpty k := by
  intro L
  induction L with
  | nil => intro s c hc; left; exact hc
  | cons k0 L' ih =>
    intro s c hc
    rw [foldRep_cons] at hc
    rcases ih (repKey k0 s) c hc with h | ⟨k, hk, hck⟩
    · rcases mem_repKey k0 s.length s c (le_refl _) h with h1 | h1
      · left; exact h1
      · right; exact ⟨k0, List.mem_cons_self _ _, h1⟩
    · right; exact ⟨k, List.mem_cons_of_mem _ hk, hck⟩

theorem mem_onePassTS :
    ∀ n s c, s.length ≤ n → c ∈ onePassTS s → c ∈ s := by
  intro n
  induction n with
  | zero =>
    intro s c hn hc
    have : s = [] := List.length_eq_zero.mp (Nat.le_zero.mp hn)
    subst this
    rw [onePassTS_nil] at hc
    cases hc
  | succ n ih =>
    intro s c hn hc
    match s with
    | [] => rw [onePassTS_nil] at hc; cases hc
    | c0 :: rest =>
      simp only [List.length_cons] at hn
      cases hmatch : matchTS (c0 :: rest) with
      | some p =>
        obtain ⟨emit, rest'⟩ := p
        rw [onePassTS_cons_some hmatch] at hc
        have hts := matchTS_some hmatch
        rcases List.mem_append.mp hc with h | h
        · exact hts.2.2.2.2 c h
        · have hlen := hts.2.2.1
          simp only [List.length_cons] at hlen
          exact hts.2.2.2.1.subset (ih rest' c (by omega) h)
      | none =>
        rw [onePassTS_cons_none hmatch] at hc
        rcases List.mem_cons.mp hc with h | h
        · rw [h]; exact List.mem_cons_self _ _
        · exact List.mem_cons_of_mem _ (ih rest c (by omega) h)

theorem mem_fixThousandFuel :
    ∀ m s c, c ∈ fixThousandFuel m s → c ∈ s := by
  intro m
  induction m with
  | zero => intro s c hc; exact hc
  | succ m ih =>
    intro s c hc
    simp only [fixThousandFuel] at hc
    by_cases ht : onePassTS s = s
    · rw [if_pos ht] at hc; exact hc
    · rw [if_neg ht] at hc
      exact mem_onePassTS s.length s c (le_refl _) (ih (onePassTS s) c hc)

theorem removeInvisibleRunes_of_clean {s : List Char}
    (h : ∀ c ∈ s, isInvisibleRune c = false) : removeInvisibleRunes s = s := by
  unfold removeInvisibleRunes
  apply List.filter_eq_self.mpr
  intro a ha
  rw [h a ha]
  rfl

theorem fixMissingQuotes_of_fixed {s : List Char}
    (h : ∀ c ∈ s, quoteMap c = c) : fixMissingQuotes s = s := by
  unfold fixMissingQuotes
  induction s with
  | nil => rfl
  | cons c rest ih =>
    simp only [List.map_cons]
    rw [h c (List.mem_cons_self _ _), ih (fun x hx => h x (List.mem_cons_of_mem _ hx))]

/-- Members of s after invisible-rune removal carry the filter property. -/
theorem mem_removeInvisibleRunes {s : List Char} {c : Char}
    (h : c ∈ removeInvisibleRunes s) : isInvisibleRune c = false := by
  unfold removeInvisibleRunes at h
  have := List.of_mem_filter h
  simpa using this

/-- Claim C6: the JSON repair pipeline of `extractDecisions` — invisible-rune
removal, `fixMissingQuotes`, `fixEmptyStringFields`, `fixThousandSeparators`
— is idempotent: repairing an already repaired string changes nothing. -/
theorem repair_idempotent (s : List Char) : repair (repair s) = repair s := by
  have hu : repair s =
      fixThousandSeparators (fixEmptyStringFields (fixMissingQuotes
        (removeInvisibleRunes s))) := rfl
  -- character provenance through the four stages
  have hs1 : ∀ c ∈ fixMissingQuotes (removeInvisibleRunes s),
      isInvisibleRune c = false ∧ quoteMap c = c := by
    intro c hc
    unfold fixMissingQuotes at hc
    obtain ⟨b, hb, hbc⟩ := List.mem_map.mp hc
    rcases quoteMap_target b with hfix | htgt
    · have hbinv := mem_removeInvisibleRunes hb
      rw [← hbc, hfix]
      exact ⟨hbinv, hfix⟩
    · rw [← hbc]
      have := qTargets_facts (quoteMap b) htgt
      exact ⟨this.2, this.1⟩
  have hs2 : ∀ c ∈ fixEmptyStringFields (fixMissingQuotes (removeInvisibleRunes s)),
      isInvisibleRune c = false ∧ quoteMap c = c := by
    intro c hc
    rw [fixEmptyStringFields_eq] at hc
    rcases mem_foldRep numericKeys _ c hc with h | ⟨k, hk, hck⟩
    · exact hs1 c h
    · have := replEmpty_chars k (numericKeys_plain k hk) c hck
      exact ⟨this.2, this.1⟩
  have huchars : ∀ c ∈ repair s, isInvisibleRune c = false ∧ quoteMap c = c := by
    intro c hc
    rw [hu] at hc
    exact hs2 c (mem_fixThousandFuel _ _ c hc)
  -- each numeric key is inert in the repaired string
  have huinert : ∀ k ∈ numericKeys, Inert k (repair s) := by
    intro k hk
    rw [hu]
    refine inert_fixThousandSeparators k (numericKeys_plain k hk) ?_
    rw [fixEmptyStringFields_eq]
    exact foldRep_inert_mem numericKeys _ k hk numericKeys_plain numericKeys_compat
  -- re-running every stage on the repaired string is the identity
  show fixThousandSeparators (fixEmptyStringFields (fixMissingQuotes
    (removeInvisibleRunes (repair s)))) = repair s
  rw [removeInvisibleRunes_of_clean (fun c hc => (huchars c hc).1)]
  rw [fixMissingQuotes_of_fixed (fun c hc => (huchars c hc).2)]
  rw [fixEmptyStringFields_eq, foldRep_of_inert numericKeys _ huinert]
  rw [hu]
  exact fixThousandSeparators_idem _

/-! ## `extractDecisions` fallback (C7)

Models the control flow of `extractDecisions` (983–1096): pre-clean the
response, try the ```json fence regex, then the bare-array regex, and
otherwise synthesise a single safe `wait` decision.  Byte-level Go operations
(`len`, slicing) are modelled on explicit UTF-8 byte lists. -/

/-- `unicode.IsSpace` (Go `strings.TrimSpace`): the White_Space property. -/
def goUnicodeSpace (c : Char) : Bool :=
  c = ' ' || c = '\t' || c = '\n' || c = '\x0b' || c = '\x0c' || c = '\r' ||
  c = '\u0085' || c = '\u00A0' || c = '\u1680' ||
  (0x2000 ≤ c.toNat && c.toNat ≤ 0x200A) ||
  c = '\u2028' || c = '\u2029' || c = '\u202F' || c = '\u205F' || c = '\u3000'

def trimLeft : List Char → List Char
  | [] => []
  | c :: s => if goUnicodeSpace c then trimLeft s else c :: s

/-- `strings.TrimSpace` on rune lists. -/
def trimSpace (s : List Char) : List Char :=
  ((trimLeft (trimLeft s).reverse)).reverse

/-- Munch `\s*` (Go regex whitespace), then require the literal `c`; exact
because the follower `c` is never itself regex whitespace here. -/
def wsThen (c : Char) : List Char → Option (List Char)
  | [] => none
  | x :: s =>
    if goWhitespace x then wsThen c s
    else if x = c then some s else none

/-- Does the string start with `\[\s*\{`?  Returns the remainder after the
brace. -/
def arrayOpenAt : List Char → Option (List Char)
  | [] => none
  | c :: s => if c = '[' then wsThen '{' s else none

/-- Does the string start with `\}\s*\]`? -/
def closeTailAt : List Char → Bool
  | [] => false
  | c :: s => c = '}' && (wsThen ']' s).isSome

def existsCloseTail : List Char → Bool
  | [] => false
  | c :: s => closeTailAt (c :: s) || existsCloseTail s

/-- Existence of a match of `reJSONArray = (?is)\[\s*\{.*?\}\s*\]` in `s`:
some position opens `[ {` and a later position closes `} ]`. -/
def hasJSONArray : List Char → Bool
  | [] => false
  | c :: s =>
    (match arrayOpenAt (c :: s) with
     | some r => existsCloseTail r
     | none => false) || hasJSONArray s

/-- The ASCII grave accent used by markdown fences. -/
def tick : Char := '\u0060'

/-- Case-insensitive literal `json`. -/
def matchJsonCI : List Char → Option (List Char)
  | c1 :: c2 :: c3 :: c4 :: rest =>
    if c1.toLower = 'j' && c2.toLower = 's' && c3.toLower = 'o' &&
        c4.toLower = 'n' then some rest else none
  | _ => none

/-- Does the string start with `\}\s*\]\s*` followed by the closing fence? -/
def fenceCloseAt : List Char → Bool
  | [] => false
  | c :: s =>
    c = '}' &&
    (match wsThen ']' s with
     | some s2 =>
       (match wsThen tick s2 with
        | some s3 =>
          (match s3 with
           | b2 :: b3 :: _ => b2 = tick && b3 = tick
           | _ => false)
        | none => false)
     | none => false)

def existsFenceClose : List Char → Bool
  | [] => false
  | c :: s => fenceCloseAt (c :: s) || existsFenceClose s

/-- Does the fence pattern match starting at the head? -/
def matchFenceAt : List Char → Bool
  | b1 :: b2 :: b3 :: s1 =>
    b1 = tick && b2 = tick && b3 = tick &&
    (match matchJsonCI s1 with
     | some s2 =>
       (match wsThen '[' s2 with
        | some s3 =>
          (match wsThen '{' s3 with
           | some s4 => existsFenceClose s4
           | none => false)
        | none => false)
     | none => false)
  | _ => false

/-- Existence of a match of `reJSONFence` in `s`. -/
def hasJSONFence : List Char → Bool
  | [] => false
  | c :: s => matchFenceAt (c :: s) || hasJSONFence s

/-- Standard UTF-8 encoding of one scalar value, as byte values. -/
def utf8EncodeChar (c : Char) : List Nat :=
  let n := c.toNat
  if n < 0x80 then [n]
  else if n < 0x800 then [0xC0 + n / 0x40, 0x80 + n % 0x40]
  else if n < 0x10000 then
    [0xE0 + n / 0x1000, 0x80 + (n / 0x40) % 0x40, 0x80 + n % 0x40]
  else
    [0xF0 + n / 0x40000, 0x80 + (n / 0x1000) % 0x40, 0x80 + (n / 0x40) % 0x40,
      0x80 + n % 0x40]

/-- The byte string a Go `string` holds for this rune list. -/
def utf8Bytes (s : List Char) : List Nat := (s.map utf8EncodeChar).join

/-- The pre-cleaning applied to the raw response before any regex runs
(`extractDecisions` lines 984–994). -/
def cleanResponse (response : List Char) : List Char :=
  fixEmptyStringFields (fixMissingQuotes (trimSpace (removeInvisibleRunes response)))

/-- The constant prefix of the fallback reasoning text. -/
def fallbackPrefix : List Char := "模型未输出结构化JSON决策，进入安全等待；摘要：".toList

/-- The fallback reasoning as Go builds it: the prefix plus the cleaned text,
truncated to its first 240 BYTES (Go `len`/slicing are byte-based) with an
ASCII ellipsis when longer. -/
def fallbackReasoningBytes (s : List Char) : List Nat :=
  utf8Bytes fallbackPrefix ++
    (if 240 < (utf8Bytes s).length then
      (utf8Bytes s).take 240 ++ utf8Bytes "...".toList
    else utf8Bytes s)

structure FallbackDecision where
  symbol : List Char
  action : List Char
  reasoningBytes : List Nat
  deriving DecidableEq, Repr

inductive ExtractOutcome where
  | fencePath (content : List Char)
  | arrayPath (content : List Char)
  | fallbackWait (decisions : List FallbackDecision)
  deriving DecidableEq, Repr

/-- Control flow of `extractDecisions`: fence branch, array branch, or the
safe fallback that synthesises exactly one `wait` decision. -/
def extractDecisionsModel (response : List Char) : ExtractOutcome :=
  let s := cleanResponse response
  if hasJSONFence s then .fencePath s
  else if hasJSONArray s then .arrayPath s
  else .fallbackWait
    [{ symbol := "ALL".toList, action := "wait".toList,
       reasoningBytes := fallbackReasoningBytes s }]

theorem wsThen_suffix {c : Char} :
    ∀ {s r : List Char}, wsThen c s = some r → (c :: r) <:+ s := by
  intro s
  induction s with
  | nil => intro r h; cases h
  | cons x s' ih =>
    intro r h
    simp only [wsThen] at h
    split_ifs at h with h1 h2
    · exact (ih h).trans (List.suffix_cons x s')
    · cases h
      subst h2
      exact List.suffix_refl _

theorem matchJsonCI_suffix :
    ∀ {s1 s2 : List Char}, matchJsonCI s1 = some s2 → s2 <:+ s1 := by
  intro s1 s2 h
  match s1, h with
  | [], h => cases h
  | [_], h => cases h
  | [_, _], h => cases h
  | [_, _, _], h => cases h
  | c1 :: c2 :: c3 :: c4 :: rest, h =>
    simp only [matchJsonCI] at h
    split_ifs at h
    cases h
    exact ⟨[c1, c2, c3, c4], rfl⟩

theorem fenceCloseAt_closeTail :
    ∀ {u : List Char}, fenceCloseAt u = true → closeTailAt u = true := by
  intro u h
  match u with
  | [] => cases h
  | c :: s =>
    simp only [fenceCloseAt, Bool.and_eq_true, decide_eq_true_eq] at h
    obtain ⟨hc, hrest⟩ := h
    simp only [closeTailAt, Bool.and_eq_true, decide_eq_true_eq]
    refine ⟨hc, ?_⟩
    cases hw : wsThen ']' s with
    | none => rw [hw] at hrest; cases hrest
    | some s2 => simp [hw]

theorem existsFenceClose_closeTail :
    ∀ u, existsFenceClose u = true → existsCloseTail u = true := by
  intro u
  induction u with
  | nil => intro h; cases h
  | cons c s ih =>
    intro h
    simp only [existsFenceClose, Bool.or_eq_true] at h
    simp only [existsCloseTail, Bool.or_eq_true]
    rcases h with h | h
    · left; exact fenceCloseAt_closeTail h
    · right; exact ih h

theorem hasJSONArray_of_open :
    ∀ s t r, t <:+ s → arrayOpenAt t = some r → existsCloseTail r = true →
      hasJSONArray s = true := by
  intro s
  induction s with
  | nil =>
    intro t r ht ho _
    rw [List.suffix_nil.mp ht] at ho
    cases ho
  | cons c s' ih =>
    intro t r ht ho hc
    simp only [hasJSONArray, Bool.or_eq_true]
    rcases List.suffix_cons_iff.mp ht with hw | htail
    · left
      rw [← hw, ho]
      exact hc
    · right
      exact ih t r htail ho hc

/-- A fence match contains an array match, so the array search can only come
up empty when the fence search did too. -/
theorem fence_implies_array :
    ∀ s, hasJSONFence s = true → hasJSONArray s = true := by
  intro s
  induction s with
  | nil => intro h; cases h
  | cons c s' ih =>
    intro h
    simp only [hasJSONFence, Bool.or_eq_true] at h
    rcases h with hm | htail
    · match s', hm with
      | [], hm => cases hm
      | [_], hm => cases hm
      | b2 :: b3 :: s1, hm =>
        simp only [matchFenceAt, Bool.and_eq_true, decide_eq_true_eq] at hm
        obtain ⟨⟨⟨hc, hb2⟩, hb3⟩, hrest⟩ := hm
        cases hj : matchJsonCI s1 with
        | none => rw [hj] at hrest; cases hrest
        | some s2 =>
          simp only [hj] at hrest
          cases hw1 : wsThen '[' s2 with
          | none => simp only [hw1] at hrest; cases hrest
          | some s3 =>
            simp only [hw1] at hrest
            cases hw2 : wsThen '{' s3 with
            | none => simp only [hw2] at hrest; cases hrest
            | some s4 =>
              simp only [hw2] at hrest
              have hopen : arrayOpenAt ('[' :: s3) = some s4 := by
                simp only [arrayOpenAt, if_pos]
                exact hw2
              have hsuf : ('[' :: s3) <:+ (c :: b2 :: b3 :: s1) :=
                ((wsThen_suffix hw1).trans (matchJsonCI_suffix hj)).trans
                  ((List.suffix_cons b3 s1).trans
                    ((List.suffix_cons b2 (b3 :: s1)).trans
                      (List.suffix_cons c (b2 :: b3 :: s1))))
              exact hasJSONArray_of_open _ _ s4 hsuf hopen
                (existsFenceClose_closeTail s4 hrest)
    · simp only [hasJSONArray, Bool.or_eq_true]
      right
      exact ih htail

/-- A response that is only chain-of-thought prose: a zero-width space
followed by 81 CJK characters (three UTF-8 bytes each). -/
def cexRaw : List Char := '\u200B' :: List.replicate 81 '思'

set_option maxRecDepth 40000 in
/-- Claim C7 counterexample: on `cexRaw` the fallback fires, but its reasoning
does not quote the first 240 characters of the raw text.  The first 240
characters of the raw text are the whole raw text (82 characters), whose
bytes appear nowhere in the reasoning (the zero-width space was stripped);
the text actually quoted is the cleaned text, and even that is cut at 240
BYTES (80 of its 81 characters), not at 240 characters. -/
theorem extractDecisions_fallback_quotes_cleaned_not_raw :
    extractDecisionsModel cexRaw =
      .fallbackWait
        [{ symbol := "ALL".toList, action := "wait".toList,
           reasoningBytes := fallbackReasoningBytes (cleanResponse cexRaw) }] ∧
    cexRaw.take 240 = cexRaw ∧
    ¬ utf8Bytes cexRaw <:+: fallbackReasoningBytes (cleanResponse cexRaw) ∧
    (cleanResponse cexRaw).length ≤ 240 ∧
    ¬ utf8Bytes (cleanResponse cexRaw) <:+:
        fallbackReasoningBytes (cleanResponse cexRaw) := by
  decide

/-- Claim C7 (amended): whenever the repaired (cleaned) response contains no
JSON array of objects — so neither the ```json fence branch nor the bare-array
branch of `extractDecisions` can fire — the function does not fail the cycle:
it returns exactly one decision, with symbol `ALL` and action `wait`, whose
reasoning quotes the CLEANED text (not the raw text), truncated to its first
240 BYTES (not characters) plus an ellipsis when its UTF-8 form exceeds 240
bytes. -/
theorem extractDecisions_fallback_wait (response : List Char)
    (h : hasJSONArray (cleanResponse response) = false) :
    extractDecisionsModel response =
      .fallbackWait
        [{ symbol := "ALL".toList, action := "wait".toList,
           reasoningBytes := utf8Bytes fallbackPrefix ++
             (if 240 < (utf8Bytes (cleanResponse response)).length then
               (utf8Bytes (cleanResponse response)).take 240 ++
                 utf8Bytes "...".toList
             else utf8Bytes (cleanResponse response)) }] := by
  have hf : hasJSONFence (cleanResponse response) = false := by
    cases hfc : hasJSONFence (cleanResponse response)
    · rfl
    · rw [fence_implies_array _ hfc] at h
      cases h
  simp only [extractDecisionsModel, hf, h, Bool.false_eq_true, if_false,
    fallbackReasoningBytes]

theorem extractDecisions_fallback_wait_witness :
    hasJSONArray (cleanResponse "hello".toList) = false ∧
    extractDecisionsModel "hello".toList =
      .fallbackWait
        [{ symbol := "ALL".toList, action := "wait".toList,
           reasoningBytes := utf8Bytes fallbackPrefix ++
             (if 240 < (utf8Bytes (cleanResponse "hello".toList)).length then
               (utf8Bytes (cleanResponse "hello".toList)).take 240 ++
                 utf8Bytes "...".toList
             else utf8Bytes (cleanResponse "hello".toList)) }] :=
  ⟨by decide, extractDecisions_fallback_wait "hello".toList (by decide)⟩

end Nofx
